import Mathlib

/-!
# Voice search agent (`src/pages/index.js`)

A shallow embedding of the `Home` component of the voice search agent: the
command interpreter (`processCommand`), the search dispatcher
(`performSearch`), the speech output wrapper (`speak`) and the recognition
handlers installed by the mount effect, followed by the properties proved
about them.

JavaScript strings are modelled as lists of Unicode characters.  Transcripts
are well-formed text, every pattern the component uses is ASCII and every
white space character lies in the Basic Multilingual Plane, so matching on
characters and matching on UTF-16 code units agree.
-/

namespace VoiceAgent

/-- A JavaScript string, as the list of its characters. -/
abbrev JsString := List Char

/-! ## String primitives used by the component -/

/-- The characters `String.prototype.trim` removes and the regular expression
class `\s` matches: ECMAScript `WhiteSpace` together with `LineTerminator`. -/
def isWhiteSpace (c : Char) : Bool :=
  let n := c.toNat
  n == 0x09 || n == 0x0A || n == 0x0B || n == 0x0C || n == 0x0D || n == 0x20 ||
  n == 0xA0 || n == 0x1680 || (decide (0x2000 ≤ n) && decide (n ≤ 0x200A)) ||
  n == 0x2028 || n == 0x2029 || n == 0x202F || n == 0x205F || n == 0x3000 ||
  n == 0xFEFF

/-- Removal of leading white space. -/
def trimStart (s : JsString) : JsString := s.dropWhile isWhiteSpace

/-- Removal of trailing white space. -/
def trimEnd (s : JsString) : JsString := (s.reverse.dropWhile isWhiteSpace).reverse

/-- The method `String.prototype.trim`. -/
def trim (s : JsString) : JsString := trimEnd (trimStart s)

/-- Lower-casing of an ASCII character: `A`..`Z` go to `a`..`z`. -/
def asciiLower (c : Char) : Char :=
  if 65 ≤ c.toNat ∧ c.toNat ≤ 90 then Char.ofNat (c.toNat + 32) else c

/-- The host's Unicode lower-casing of a character outside ASCII, given the
text before and after it (the `Final_Sigma` rule looks at the context).  The
Unicode tables are not part of the repository: they are a parameter. -/
abbrev CaseTable := JsString → Char → JsString → JsString

/-- Lower-casing of the text `s` that follows `before`. -/
def toLowerCaseFrom (u : CaseTable) : JsString → JsString → JsString
  | _, [] => []
  | before, c :: rest =>
    (if c.toNat < 128 then [asciiLower c] else u before c rest) ++
      toLowerCaseFrom u (before ++ [c]) rest

/-- A case table that leaves every character outside ASCII as it is. -/
def plainCaseTable : CaseTable := fun _ c _ => [c]

/-- The method `String.prototype.toLowerCase`. -/
def toLowerCase (u : CaseTable) (s : JsString) : JsString := toLowerCaseFrom u [] s

/-- The method `String.prototype.includes`: `p` occurs in `s` as a substring. -/
def includes : JsString → JsString → Bool
  | [], p => p.isEmpty
  | c :: cs, p => p.isPrefixOf (c :: cs) || includes cs p

/-- The value on which an `i`-flagged regular expression without the `u` flag
compares characters (`Canonicalize`): `a`..`z` are compared as `A`..`Z`.  A
character outside ASCII never canonicalizes to an ASCII one, and the
component's patterns are ASCII, so such characters are left as they are. -/
def canonicalize (c : Char) : Nat :=
  if 97 ≤ c.toNat ∧ c.toNat ≤ 122 then c.toNat - 32 else c.toNat

/-- The literal pattern `pat` matches, ignoring case, at the start of `text`. -/
def ciStartsWith : JsString → JsString → Bool
  | [], _ => true
  | _ :: _, [] => false
  | p :: ps, c :: cs => (canonicalize p == canonicalize c) && ciStartsWith ps cs

/-- The scan of `s.replace(/pat/gi, '')` for a non-empty literal `pat`: `skip`
counts the characters of the current match that remain to be dropped. -/
def replaceGo (pat : JsString) : Nat → JsString → JsString
  | _, [] => []
  | k + 1, _ :: cs => replaceGo pat k cs
  | 0, c :: cs =>
    if ciStartsWith pat (c :: cs) then replaceGo pat (pat.length - 1) cs
    else c :: replaceGo pat 0 cs

/-- The call `s.replace(/pat/gi, '')` for a non-empty literal `pat`: every
match found by the left-to-right scan is deleted, and the scan resumes after
the match. -/
def replaceAllCI (pat : JsString) (s : JsString) : JsString := replaceGo pat 0 s

/-- The scan of `s.replace(/\s+/g, sep)`. -/
def replaceSpaceRunsGo (sep : Char) : Bool → JsString → JsString
  | _, [] => []
  | inRun, c :: cs =>
    if isWhiteSpace c then
      (if inRun then [] else [sep]) ++ replaceSpaceRunsGo sep true cs
    else c :: replaceSpaceRunsGo sep false cs

/-- The call `s.replace(/\s+/g, sep)`: each maximal run of white space becomes
one `sep`. -/
def replaceSpaceRuns (sep : Char) (s : JsString) : JsString :=
  replaceSpaceRunsGo sep false s

/-- The UTF-8 bytes of a character. -/
def utf8Bytes (c : Char) : List Nat :=
  let n := c.toNat
  if n < 0x80 then [n]
  else if n < 0x800 then [0xC0 + n / 64, 0x80 + n % 64]
  else if n < 0x10000 then [0xE0 + n / 4096, 0x80 + n / 64 % 64, 0x80 + n % 64]
  else [0xF0 + n / 262144, 0x80 + n / 4096 % 64, 0x80 + n / 64 % 64, 0x80 + n % 64]

/-- An upper-case hexadecimal digit. -/
def hexDigit (d : Nat) : Char :=
  if d < 10 then Char.ofNat (48 + d) else Char.ofNat (55 + d)

/-- The characters `encodeURIComponent` leaves as they are. -/
def isUriUnreserved (c : Char) : Bool :=
  let n := c.toNat
  (decide (65 ≤ n) && decide (n ≤ 90)) || (decide (97 ≤ n) && decide (n ≤ 122)) ||
  (decide (48 ≤ n) && decide (n ≤ 57)) || ("-_.!~*()".toList ++ [Char.ofNat 39]).contains c

/-- The function `encodeURIComponent` on well-formed text. -/
def encodeURIComponent (s : JsString) : JsString :=
  s.flatMap fun c =>
    if isUriUnreserved c then [c]
    else (utf8Bytes c).flatMap fun b => ['%', hexDigit (b / 16), hexDigit (b % 16)]

/-! ## State of the component -/

/-- One entry of the mock result list. -/
structure SearchResult where
  title : JsString
  link : JsString
  snippet : JsString
  deriving DecidableEq, Repr

/-- A `SpeechSynthesisUtterance` as `speak` configures it. -/
structure Utterance where
  text : JsString
  rate : Rat
  pitch : Rat
  volume : Rat
  deriving DecidableEq, Repr

/-- A call the component makes on the host. -/
inductive Effect where
  | recognitionStart
  | recognitionStop
  | synthesisCancel
  | synthesisSpeak (utterance : Utterance)
  | windowOpen (url : JsString) (target : JsString)
  | consoleError (message : JsString) (detail : JsString)
  deriving DecidableEq, Repr

/-- The recognizer object held by `recognitionRef`, as the mount effect
configures it.  The `onend` handler is a closure created by that effect: it
reads the `isListening` constant of the render in which the effect ran, kept
here as `onendIsListening`. -/
structure Recognition where
  continuous : Bool
  interimResults : Bool
  lang : JsString
  onendIsListening : Bool
  deriving DecidableEq, Repr

/-- The six state variables and two refs of `Home`, with the log of the calls
made on the host so far (oldest first).  `recognitionRef` is `none` while
`recognitionRef.current` is null; `synthesisRef` tells whether
`synthesisRef.current` holds a synthesizer. -/
structure State where
  isListening : Bool
  transcript : JsString
  response : JsString
  searchResults : List SearchResult
  isSpeaking : Bool
  error : JsString
  recognitionRef : Option Recognition
  synthesisRef : Bool
  effects : List Effect
  deriving DecidableEq, Repr

/-- What the browser provides: a speech recognition constructor
(`window.SpeechRecognition || window.webkitSpeechRecognition`) and a speech
synthesizer (`window.speechSynthesis`). -/
structure Host where
  speechRecognition : Bool
  speechSynthesis : Bool
  deriving DecidableEq, Repr

/-- A browser with both speech recognition and speech synthesis. -/
def fullHost : Host := { speechRecognition := true, speechSynthesis := true }

/-- A browser without speech recognition. -/
def hostWithoutRecognition (synthesis : Bool) : Host :=
  { speechRecognition := false, speechSynthesis := synthesis }

/-- The state of the first render: the `useState` and `useRef` initial values. -/
def initialState : State :=
  { isListening := false, transcript := [], response := [], searchResults := [],
    isSpeaking := false, error := [], recognitionRef := none, synthesisRef := false,
    effects := [] }

/-- Appends a host call to the log. -/
def emit (s : State) (e : Effect) : State := { s with effects := s.effects ++ [e] }

/-! ## The functions of the component -/

/-- The function `speak`. -/
def speak (s : State) (text : JsString) : State :=
  if s.synthesisRef then
    let s1 := emit s Effect.synthesisCancel
    let utterance : Utterance := { text := text, rate := 1, pitch := 1, volume := 1 }
    emit s1 (Effect.synthesisSpeak utterance)
  else s

/-- The template of the spoken and displayed response. -/
def responseText (query : JsString) : JsString :=
  "I found information about ".toList ++ query ++
    ". Opening Google search results for you.".toList

/-- The list `mockResults` of `performSearch`.  The two `example` links are
lower-cased with the host's table `u`. -/
def mockResults (u : CaseTable) (query : JsString) : List SearchResult :=
  [ { title := query ++ " - Wikipedia".toList,
      link := "https://en.wikipedia.org/wiki/".toList ++ replaceSpaceRuns '_' query,
      snippet := "Information about ".toList ++ query ++ " from Wikipedia...".toList },
    { title := query ++ " - Official Website".toList,
      link := "https://www.example.com/".toList ++
        toLowerCase u (replaceSpaceRuns '-' query),
      snippet := "Official information and resources about ".toList ++ query ++
        "...".toList },
    { title := "Learn about ".toList ++ query,
      link := "https://www.example.org/learn/".toList ++
        toLowerCase u (replaceSpaceRuns '-' query),
      snippet := "Comprehensive guide and tutorials for ".toList ++ query ++
        "...".toList } ]

/-- The function `performSearch`. -/
def performSearch (u : CaseTable) (s : State) (query : JsString) : State :=
  let googleSearchUrl := "https://www.google.com/search?q=".toList ++ encodeURIComponent query
  let s1 := { s with searchResults := mockResults u query }
  let s2 := { s1 with response := responseText query }
  let s3 := speak s2 (responseText query)
  emit s3 (Effect.windowOpen googleSearchUrl "_blank".toList)

/-- The four phrases whose presence in the lower-cased command selects the
stripping branch of `processCommand`. -/
def triggerPhrases : List JsString :=
  ["search".toList, "google".toList, "find".toList, "look up".toList]

/-- The condition of `processCommand`: the lower-cased command includes
`search`, `google`, `find` or `look up`. -/
def hasTrigger (u : CaseTable) (command : JsString) : Bool :=
  let lowerCommand := toLowerCase u command
  includes lowerCommand "search".toList || includes lowerCommand "google".toList ||
    includes lowerCommand "find".toList || includes lowerCommand "look up".toList

/-- The five replacements of `processCommand`, before `trim`. -/
def stripPhrases (command : JsString) : JsString :=
  replaceAllCI "look up".toList
    (replaceAllCI "find".toList
      (replaceAllCI "google".toList
        (replaceAllCI "search".toList
          (replaceAllCI "search for".toList command))))

/-- The constant `searchQuery` of `processCommand`. -/
def searchQuery (command : JsString) : JsString := trim (stripPhrases command)

/-- The function `processCommand`. -/
def processCommand (u : CaseTable) (s : State) (command : JsString) : State :=
  if hasTrigger u command then
    if searchQuery command ≠ [] then performSearch u s (searchQuery command) else s
  else performSearch u s command

/-- The prompt spoken when listening is switched on. -/
def listeningPrompt : JsString :=
  "I".toList ++ [Char.ofNat 39] ++ "m listening. What would you like me to search for?".toList

/-- The function `toggleListening`, the click handler of the button. -/
def toggleListening (s : State) : State :=
  if s.isListening then
    let s1 := if s.recognitionRef.isSome then emit s Effect.recognitionStop else s
    { s1 with isListening := false }
  else
    let s1 := { s with error := [] }
    let s2 := if s1.recognitionRef.isSome then emit s1 Effect.recognitionStart else s1
    let s3 := { s2 with isListening := true }
    speak s3 listeningPrompt

/-- The mount effect (`useEffect` with an empty dependency list), run once
after the first render. -/
def mount (h : Host) (s : State) : State :=
  let recognition : Recognition :=
    { continuous := true, interimResults := true, lang := "en-US".toList,
      onendIsListening := s.isListening }
  let s1 :=
    if h.speechRecognition then { s with recognitionRef := some recognition }
    else { s with error := "Speech recognition not supported in this browser".toList }
  { s1 with synthesisRef := h.speechSynthesis }

/-- The handler `onresult` for a result whose first alternative is
`transcriptText`. -/
def onresult (u : CaseTable) (s : State) (isFinal : Bool) (transcriptText : JsString) : State :=
  if isFinal then
    let s1 := { s with transcript := transcriptText }
    processCommand u s1 transcriptText
  else s

/-- The handler `onerror` for the error code `code`. -/
def onerror (s : State) (code : JsString) : State :=
  let s1 := emit s (Effect.consoleError "Speech recognition error:".toList code)
  let s2 := { s1 with error := "Recognition error: ".toList ++ code }
  { s2 with isListening := false }

/-- The handler `onend`. -/
def onend (s : State) : State :=
  match s.recognitionRef with
  | some r => if r.onendIsListening then emit s Effect.recognitionStart else s
  | none => s

/-- What can happen to the mounted component: a click on the button, an event
of the recognizer, or the start or end of an utterance. -/
inductive Event where
  | toggle
  | result (isFinal : Bool) (transcriptText : JsString)
  | error (code : JsString)
  | ended
  | utteranceStart
  | utteranceEnd
  deriving DecidableEq, Repr

/-- One event handled by the component.  Recognizer events reach the handlers
only when a recognizer exists. -/
def step (u : CaseTable) (s : State) : Event → State
  | Event.toggle => toggleListening s
  | Event.result isFinal text => if s.recognitionRef.isSome then onresult u s isFinal text else s
  | Event.error code => if s.recognitionRef.isSome then onerror s code else s
  | Event.ended => onend s
  | Event.utteranceStart => { s with isSpeaking := true }
  | Event.utteranceEnd => { s with isSpeaking := false }

/-- The component after mounting on host `h` and handling `events` in order. -/
def run (h : Host) (u : CaseTable) (events : List Event) : State :=
  events.foldl (step u) (mount h initialState)

/-- A synthesizer in which `cancel` drops every active or pending utterance
and `speak` queues one: the utterances active or pending after a host call. -/
def synthStep (queue : List Utterance) : Effect → List Utterance
  | Effect.synthesisCancel => []
  | Effect.synthesisSpeak utterance => queue ++ [utterance]
  | _ => queue

/-- The argument of the `performSearch` call that `processCommand` makes for
`command`, or `none` when it makes no call. -/
def dispatchedQuery (u : CaseTable) (command : JsString) : Option JsString :=
  if hasTrigger u command then
    if searchQuery command ≠ [] then some (searchQuery command) else none
  else some command

/-- The utterances active or pending after the host calls `effects`. -/
def synthQueue (effects : List Effect) : List Utterance := effects.foldl synthStep []

/-- A phrase occurs in `s` in some letter case: the pattern `/p/i` matches
somewhere in `s`. -/
def includesCI : JsString → JsString → Bool
  | [], p => ciStartsWith p []
  | c :: cs, p => ciStartsWith p (c :: cs) || includesCI cs p

/-- The text `P` is the phrase `pat` up to the case of its letters. -/
def isCasingOf (pat P : JsString) : Bool :=
  decide (P.length = pat.length) && ciStartsWith pat P

/-- No trigger phrase occurs in `s`, in any letter case. -/
def triggerFree (s : JsString) : Prop :=
  ∀ p ∈ triggerPhrases, includesCI s p = false

instance (s : JsString) : Decidable (triggerFree s) := by
  unfold triggerFree
  infer_instance

/-- The five phrases `processCommand` deletes. -/
def strippedPhrases : List JsString :=
  ["search for".toList, "search".toList, "google".toList, "find".toList, "look up".toList]

/-- The characters of a phrase are lower-case ASCII letters or blanks. -/
def isLowerPhrase (p : JsString) : Bool :=
  p.all fun c => (decide (97 ≤ c.toNat) && decide (c.toNat ≤ 122)) || c.toNat == 32

/-- Two texts agree, ignoring case, on their common length. -/
def agree : JsString → JsString → Bool
  | [], _ => true
  | _ :: _, [] => true
  | x :: xs, y :: ys => (canonicalize x == canonicalize y) && agree xs ys

/-- No end piece of `q` that leaves out at least its first character agrees
with `pat`: a match of `q` cannot start before a casing of `pat` and run into
it. -/
def crossFree (q pat : JsString) : Bool :=
  (List.range q.length).all fun j => j == 0 || !agree (q.drop j) pat

/-- One occurrence of a command phrase in a transcript: the phrase, the text
`text` that spells it in some letter case, and the text `after` that follows it
up to the next occurrence. -/
structure PhraseOccurrence where
  phrase : JsString
  text : JsString
  after : JsString
  deriving DecidableEq, Repr

/-- The text made of the occurrences in order, each followed by its `after`;
only the occurrences of a phrase in `present` are spelled out.  With every
stripped phrase present this is the transcript after its first gap; with none
it is what is left when all the occurrences are deleted. -/
def joinOccurrences (present : List JsString) : List PhraseOccurrence → JsString
  | [] => []
  | o :: rest =>
    (if o.phrase ∈ present then o.text else []) ++ (o.after ++ joinOccurrences present rest)

/-- Every occurrence is a letter-casing of one of the five stripped phrases,
and an occurrence of `search` is not directly followed by ` for` in the
transcript (such an occurrence has to be given as `search for`). -/
def wellFormedOccurrences : List PhraseOccurrence → Bool
  | [] => true
  | o :: rest =>
    strippedPhrases.contains o.phrase && isCasingOf o.phrase o.text &&
    (o.phrase != "search".toList ||
      !ciStartsWith " for".toList (o.after ++ joinOccurrences strippedPhrases rest)) &&
    wellFormedOccurrences rest

/-- Every end piece of the phrase holds a lower-case letter. -/
def endsInLetter (p : JsString) : Bool :=
  (List.range p.length).all fun j =>
    (p.drop j).any fun d => decide (97 ≤ d.toNat) && decide (d.toNat ≤ 122)

/-! ## Properties -/

theorem processCommand_eq_dispatch (u : CaseTable) (s : State) (command : JsString) :
    processCommand u s command =
      match dispatchedQuery u command with
      | some q => performSearch u s q
      | none => s := by
  unfold processCommand dispatchedQuery
  by_cases h : hasTrigger u command = true
  · by_cases h2 : searchQuery command = [] <;> simp [h, h2]
  · simp [h]

theorem speak_effects (s : State) (text : JsString) :
    (speak s text).effects = s.effects ++
      (if s.synthesisRef then
        [Effect.synthesisCancel,
          Effect.synthesisSpeak { text := text, rate := 1, pitch := 1, volume := 1 }]
      else []) := by
  by_cases h : s.synthesisRef = true <;> simp [speak, emit, h]

theorem speak_fields (s : State) (text : JsString) :
    (speak s text).isListening = s.isListening ∧ (speak s text).transcript = s.transcript ∧
    (speak s text).response = s.response ∧ (speak s text).searchResults = s.searchResults ∧
    (speak s text).isSpeaking = s.isSpeaking ∧ (speak s text).error = s.error ∧
    (speak s text).recognitionRef = s.recognitionRef ∧
    (speak s text).synthesisRef = s.synthesisRef := by
  by_cases h : s.synthesisRef = true <;> simp [speak, emit, h]

/-- C9. Handling a recognition error with code `c` in any state sets the
listening flag to false, sets the error field to `Recognition error: ` followed
by `c` (so the message contains `c`), logs the error to the console and makes
no other host call, in particular no recognizer `start()`; transcript,
response and results are unchanged. -/
theorem onerror_forces_idle_without_retry (s : State) (c : JsString) :
    (onerror s c).isListening = false ∧
    (onerror s c).error = "Recognition error: ".toList ++ c ∧
    c <:+: (onerror s c).error ∧
    (onerror s c).effects =
      s.effects ++ [Effect.consoleError "Speech recognition error:".toList c] ∧
    (onerror s c).effects.count Effect.recognitionStart =
      s.effects.count Effect.recognitionStart ∧
    (onerror s c).transcript = s.transcript ∧
    (onerror s c).response = s.response ∧
    (onerror s c).searchResults = s.searchResults := by
  refine ⟨rfl, rfl, ⟨"Recognition error: ".toList, [], by simp [onerror]⟩, rfl, ?_, rfl, rfl, rfl⟩
  simp [onerror, emit]

theorem foldl_speak_synthesisRef (texts : List JsString) (s : State) :
    (texts.foldl speak s).synthesisRef = s.synthesisRef := by
  induction texts generalizing s with
  | nil => rfl
  | cons t ts ih => rw [List.foldl_cons, ih, (speak_fields s t).2.2.2.2.2.2.2]

theorem synthQueue_append (e₁ e₂ : List Effect) :
    synthQueue (e₁ ++ e₂) = e₂.foldl synthStep (synthQueue e₁) := by
  simp [synthQueue, List.foldl_append]

/-- C10. With a synthesizer present, `speak text` makes exactly two host
calls, in this order: `cancel()` and then `speak()` of an utterance carrying
`text` with rate, pitch and volume 1.  Hence, in a synthesizer where `cancel`
empties the active and pending utterances, after any sequence of `speak` calls
ending with `text`, started in any state, exactly one utterance is active or
pending: the one of the last call. -/
theorem speak_cancels_then_speaks (s : State) (hs : s.synthesisRef = true)
    (texts : List JsString) (text : JsString) :
    (speak s text).effects = s.effects ++
      [Effect.synthesisCancel,
        Effect.synthesisSpeak { text := text, rate := 1, pitch := 1, volume := 1 }] ∧
    synthQueue ((texts ++ [text]).foldl speak s).effects =
      [{ text := text, rate := 1, pitch := 1, volume := 1 }] ∧
    (synthQueue ((texts ++ [text]).foldl speak s).effects).length ≤ 1 := by
  have h1 : synthQueue ((texts ++ [text]).foldl speak s).effects =
      [{ text := text, rate := 1, pitch := 1, volume := 1 }] := by
    rw [List.foldl_append, List.foldl_cons, List.foldl_nil, speak_effects,
      foldl_speak_synthesisRef, hs, synthQueue_append]
    simp [synthStep]
  refine ⟨?_, h1, ?_⟩
  · rw [speak_effects, hs]; simp
  · rw [h1]; simp

/-- A mounted component on a host with a synthesizer, two `speak` calls in a
row: the queue holds the second utterance only. -/
theorem speak_cancels_then_speaks_witness :
    (mount fullHost initialState).synthesisRef
      = true ∧
    (speak (mount fullHost initialState)
        "second".toList).effects =
      (mount fullHost initialState).effects ++
        [Effect.synthesisCancel,
          Effect.synthesisSpeak
            { text := "second".toList, rate := 1, pitch := 1, volume := 1 }] ∧
    synthQueue ((["first".toList] ++ ["second".toList]).foldl speak
      (mount fullHost initialState)).effects =
      [{ text := "second".toList, rate := 1, pitch := 1, volume := 1 }] ∧
    (synthQueue ((["first".toList] ++ ["second".toList]).foldl speak
      (mount fullHost
        initialState)).effects).length ≤ 1 :=
  ⟨rfl, speak_cancels_then_speaks
    (mount fullHost initialState) rfl
    ["first".toList] "second".toList⟩

theorem performSearch_fields (u : CaseTable) (s : State) (q : JsString) :
    (performSearch u s q).isListening = s.isListening ∧
    (performSearch u s q).transcript = s.transcript ∧
    (performSearch u s q).response = responseText q ∧
    (performSearch u s q).searchResults = mockResults u q ∧
    (performSearch u s q).isSpeaking = s.isSpeaking ∧
    (performSearch u s q).error = s.error ∧
    (performSearch u s q).recognitionRef = s.recognitionRef ∧
    (performSearch u s q).synthesisRef = s.synthesisRef := by
  by_cases h : s.synthesisRef = true <;> simp [performSearch, speak, emit, h]

theorem performSearch_effects (u : CaseTable) (s : State) (q : JsString) :
    (performSearch u s q).effects = s.effects ++
      (if s.synthesisRef then
        [Effect.synthesisCancel,
          Effect.synthesisSpeak { text := responseText q, rate := 1, pitch := 1, volume := 1 }]
      else []) ++
      [Effect.windowOpen ("https://www.google.com/search?q=".toList ++ encodeURIComponent q)
        "_blank".toList] := by
  by_cases h : s.synthesisRef = true <;> simp [performSearch, speak, emit, h]

theorem infix_of_append (a q b : JsString) : q <:+: a ++ q ++ b := ⟨a, b, rfl⟩

/-- C8. For every query `q` and state, `performSearch q` sets the response to
`I found information about q. Opening Google search results for you.`, which
contains `q`; stores exactly the three mock results in their fixed order, the
title and the snippet of each containing `q`; hands exactly the response text
to `speak` (with a synthesizer: one `cancel()` and one utterance carrying the
response text) before opening the search page; and leaves the error field and
the listening flag as they were.  The final transcript
`search for rust programming` reaches it with `q = rust programming`. -/
theorem performSearch_response_and_results (u : CaseTable) (s : State) (q : JsString) :
    (performSearch u s q).response =
      "I found information about ".toList ++ q ++
        ". Opening Google search results for you.".toList ∧
    q <:+: (performSearch u s q).response ∧
    (performSearch u s q).searchResults = mockResults u q ∧
    (performSearch u s q).searchResults.length = 3 ∧
    (performSearch u s q).searchResults.map (fun r => r.title) =
      [q ++ " - Wikipedia".toList, q ++ " - Official Website".toList,
        "Learn about ".toList ++ q] ∧
    (∀ r ∈ (performSearch u s q).searchResults, q <:+: r.title ∧ q <:+: r.snippet) ∧
    (performSearch u s q).effects =
      (speak { s with searchResults := mockResults u q, response := responseText q }
        (performSearch u s q).response).effects ++
      [Effect.windowOpen ("https://www.google.com/search?q=".toList ++ encodeURIComponent q)
        "_blank".toList] ∧
    (performSearch u s q).effects = s.effects ++
      (if s.synthesisRef then
        [Effect.synthesisCancel,
          Effect.synthesisSpeak
            { text := (performSearch u s q).response, rate := 1, pitch := 1, volume := 1 }]
      else []) ++
      [Effect.windowOpen ("https://www.google.com/search?q=".toList ++ encodeURIComponent q)
        "_blank".toList] ∧
    (performSearch u s q).error = s.error ∧
    (performSearch u s q).isListening = s.isListening ∧
    dispatchedQuery u "search for rust programming".toList = some "rust programming".toList ∧
    onresult u s true "search for rust programming".toList =
      performSearch u { s with transcript := "search for rust programming".toList }
        "rust programming".toList := by
  obtain ⟨hl, -, hr, hres, -, he, -, -⟩ := performSearch_fields u s q
  have hd : dispatchedQuery u "search for rust programming".toList =
      some "rust programming".toList := by
    have h1 : hasTrigger u "search for rust programming".toList = true := rfl
    have h2 : searchQuery "search for rust programming".toList = "rust programming".toList := by
      decide
    unfold dispatchedQuery
    rw [if_pos h1, h2, if_pos (by decide)]
  refine ⟨hr, ?_, hres, ?_, ?_, ?_, ?_, ?_, he, hl, hd, ?_⟩
  · rw [hr]; exact infix_of_append _ q _
  · rw [hres]; rfl
  · rw [hres]; rfl
  · rw [hres]
    intro r hmem
    simp only [mockResults, List.mem_cons, List.mem_singleton, List.not_mem_nil, or_false] at hmem
    rcases hmem with rfl | rfl | rfl
    · exact ⟨⟨[], _, rfl⟩, infix_of_append _ q _⟩
    · exact ⟨⟨[], _, rfl⟩, infix_of_append _ q _⟩
    · exact ⟨⟨"Learn about ".toList, [], by simp⟩, infix_of_append _ q _⟩
  · rw [hr]; simp [performSearch, emit]
  · rw [hr]; exact performSearch_effects u s q
  · simp only [onresult, if_true]
    rw [processCommand_eq_dispatch, hd]

theorem toggleListening_on (s : State) (h : s.isListening = true) :
    toggleListening s =
      { (if s.recognitionRef.isSome then emit s Effect.recognitionStop else s) with
        isListening := false } := by
  simp [toggleListening, h]

theorem toggleListening_off (s : State) (h : s.isListening = false) :
    toggleListening s =
      speak { (if s.recognitionRef.isSome then
                emit { s with error := [] } Effect.recognitionStart
              else { s with error := [] }) with isListening := true } listeningPrompt := by
  simp [toggleListening, h]

/-- C6, the claim refuted: on a host with a recognizer, after one click the
component is listening with the recognizer started, and a second click calls
`stop()` and clears the listening flag. -/
theorem toggleListening_not_idempotent :
    (toggleListening (mount fullHost
      initialState)).isListening = true ∧
    (toggleListening (toggleListening (mount fullHost
      initialState))).isListening = false ∧
    (toggleListening (toggleListening (mount fullHost
      initialState))).effects =
      (toggleListening (mount fullHost
        initialState)).effects ++ [Effect.recognitionStop] := by
  decide

/-- C6, amended. The listen action is a toggle: in every state whose listening
flag is true and whose recognizer exists, it calls `stop()` exactly once, makes
no other host call (no `start()`, nothing spoken), clears the listening flag
and changes nothing else. -/
theorem toggleListening_when_listening_stops (s : State) (hl : s.isListening = true)
    (hr : s.recognitionRef.isSome = true) :
    (toggleListening s).isListening = false ∧
    (toggleListening s).effects = s.effects ++ [Effect.recognitionStop] ∧
    (toggleListening s).effects.count Effect.recognitionStart =
      s.effects.count Effect.recognitionStart ∧
    toggleListening s =
      { s with isListening := false, effects := s.effects ++ [Effect.recognitionStop] } := by
  rw [toggleListening_on s hl, hr]
  simp [emit]

/-- The amended C6 at the state reached by one click after mounting. -/
theorem toggleListening_when_listening_stops_witness :
    (toggleListening (mount fullHost
      initialState)).isListening = true ∧
    (toggleListening (mount fullHost
      initialState)).recognitionRef.isSome = true ∧
    (toggleListening (toggleListening (mount fullHost initialState))).isListening = false ∧
    (toggleListening (toggleListening (mount fullHost initialState))).effects =
      (toggleListening (mount fullHost initialState)).effects ++ [Effect.recognitionStop] ∧
    (toggleListening (toggleListening (mount fullHost initialState))).effects.count
        Effect.recognitionStart =
      (toggleListening (mount fullHost initialState)).effects.count Effect.recognitionStart ∧
    toggleListening (toggleListening (mount fullHost initialState)) =
      { toggleListening (mount fullHost initialState) with
        isListening := false,
        effects :=
          (toggleListening (mount fullHost initialState)).effects ++
            [Effect.recognitionStop] } :=
  ⟨rfl, rfl,
    toggleListening_when_listening_stops (toggleListening (mount fullHost initialState))
      rfl rfl⟩

theorem run_snoc (h : Host) (u : CaseTable) (events : List Event) (e : Event) :
    run h u (events ++ [e]) = step u (run h u events) e := by
  simp [run, List.foldl_append]

theorem speak_recognitionRef (s : State) (text : JsString) :
    (speak s text).recognitionRef = s.recognitionRef := (speak_fields s text).2.2.2.2.2.2.1

theorem toggleListening_recognitionRef (s : State) :
    (toggleListening s).recognitionRef = s.recognitionRef := by
  by_cases hl : s.isListening = true
  · rw [toggleListening_on s hl]; by_cases hr : s.recognitionRef.isSome = true <;> simp [hr, emit]
  · rw [toggleListening_off s (by simpa using hl), speak_recognitionRef]
    by_cases hr : s.recognitionRef.isSome = true <;> simp [hr, emit]

theorem processCommand_recognitionRef (u : CaseTable) (s : State) (c : JsString) :
    (processCommand u s c).recognitionRef = s.recognitionRef := by
  rw [processCommand_eq_dispatch]
  cases dispatchedQuery u c with
  | none => rfl
  | some q => exact (performSearch_fields u s q).2.2.2.2.2.2.1

theorem onend_recognitionRef (s : State) : (onend s).recognitionRef = s.recognitionRef := by
  unfold onend
  cases h : s.recognitionRef with
  | none => simp [h]
  | some r => by_cases hr : r.onendIsListening = true <;> simp [hr, emit, h]

theorem step_recognitionRef (u : CaseTable) (s : State) (e : Event) :
    (step u s e).recognitionRef = s.recognitionRef := by
  cases e with
  | toggle => exact toggleListening_recognitionRef s
  | result isFinal text =>
    simp only [step]
    split
    · unfold onresult
      split
      · exact processCommand_recognitionRef u _ text
      · rfl
    · rfl
  | error code => simp only [step]; split <;> rfl
  | ended => exact onend_recognitionRef s
  | utteranceStart => rfl
  | utteranceEnd => rfl

theorem run_recognitionRef (h : Host) (u : CaseTable) (events : List Event) :
    (run h u events).recognitionRef = (mount h initialState).recognitionRef := by
  induction events using List.reverseRecOn with
  | nil => rfl
  | append_singleton es e ih => rw [run_snoc, step_recognitionRef, ih]

/-- C4, as the code behaves. The `onend` handler installed at mount reads the
`isListening` of the first render, which is false: in every reachable state of
the component, on every host, handling the recognizer's end event changes
nothing and calls `start()` zero times, also when the listening flag is true,
as it is after one click on a host with a recognizer. -/
theorem onend_never_restarts (h : Host) (u : CaseTable) (events : List Event) :
    onend (run h u events) = run h u events ∧
    (run fullHost u [Event.toggle]).isListening = true ∧
    (run fullHost u [Event.toggle]).effects.count Effect.recognitionStart = 1 ∧
    (onend (run fullHost u [Event.toggle])).effects.count Effect.recognitionStart = 1 := by
  refine ⟨?_, rfl, rfl, rfl⟩
  unfold onend
  rw [run_recognitionRef]
  cases hh : h.speechRecognition <;> simp [mount, hh, initialState]

theorem toggleListening_effects_of_no_recognizer (s : State) (hr : s.recognitionRef = none) :
    (toggleListening s).effects.count Effect.recognitionStart =
      s.effects.count Effect.recognitionStart ∧
    (toggleListening s).effects.count Effect.recognitionStop =
      s.effects.count Effect.recognitionStop := by
  by_cases hl : s.isListening = true
  · rw [toggleListening_on s hl]; simp [hr]
  · rw [toggleListening_off s (by simpa using hl), speak_effects]
    by_cases hs : s.synthesisRef = true <;> simp [hr, hs]

theorem step_effects_of_no_recognizer (u : CaseTable) (s : State) (e : Event)
    (hr : s.recognitionRef = none) :
    (step u s e).effects.count Effect.recognitionStart =
      s.effects.count Effect.recognitionStart ∧
    (step u s e).effects.count Effect.recognitionStop =
      s.effects.count Effect.recognitionStop := by
  cases e with
  | toggle => exact toggleListening_effects_of_no_recognizer s hr
  | result isFinal text => simp [step, hr]
  | error code => simp [step, hr]
  | ended => simp [step, onend, hr]
  | utteranceStart => simp [step]
  | utteranceEnd => simp [step]

theorem run_effects_of_no_recognizer (synthesis : Bool) (u : CaseTable) (events : List Event) :
    (run (hostWithoutRecognition synthesis) u events).effects.count Effect.recognitionStart = 0 ∧
    (run (hostWithoutRecognition synthesis) u events).effects.count Effect.recognitionStop = 0 := by
  induction events using List.reverseRecOn with
  | nil => exact ⟨rfl, rfl⟩
  | append_singleton es e ih =>
    have hr : (run (hostWithoutRecognition synthesis) u es).recognitionRef = none := by
      rw [run_recognitionRef]; rfl
    rw [run_snoc, (step_effects_of_no_recognizer u _ e hr).1,
      (step_effects_of_no_recognizer u _ e hr).2]
    exact ih

theorem toggleListening_flag_and_error (s : State) :
    (toggleListening s).isListening = !s.isListening ∧
    (toggleListening s).error = if s.isListening then s.error else [] := by
  by_cases hl : s.isListening = true
  · rw [toggleListening_on s hl]
    by_cases hr : s.recognitionRef.isSome = true <;> simp [hl, hr, emit]
  · have hl2 : s.isListening = false := by simpa using hl
    rw [toggleListening_off s hl2, (speak_fields _ _).1, (speak_fields _ _).2.2.2.2.2.1]
    by_cases hr : s.recognitionRef.isSome = true <;> simp [hl2, hr, emit]

theorem run_toggles (h : Host) (u : CaseTable) (n : Nat) :
    (run h u (List.replicate n Event.toggle)).isListening = decide (n % 2 = 1) ∧
    (run h u (List.replicate n Event.toggle)).error =
      if n = 0 then (mount h initialState).error else [] := by
  induction n with
  | zero => cases hh : h.speechRecognition <;> simp [run, mount, initialState, hh]
  | succ k ih =>
    rw [List.replicate_succ', run_snoc]
    simp only [step]
    rw [(toggleListening_flag_and_error _).1, (toggleListening_flag_and_error _).2, ih.1, ih.2]
    constructor
    · rcases Nat.mod_two_eq_zero_or_one k with h0 | h1
      · have : (k + 1) % 2 = 1 := by omega
        simp [h0, this]
      · have : (k + 1) % 2 = 0 := by omega
        simp [h1, this]
    · by_cases hk : k = 0
      · subst hk; simp
      · have : k % 2 = 1 ∨ k % 2 = 0 := by omega
        rcases this with h1 | h0
        · simp [h1, hk]
        · simp [h0, hk]

/-- C5, the claim refuted: on a host without speech recognition, one click on
the button sets the listening flag and clears the error. -/
theorem unsupported_host_not_permanently_disabled :
    (mount (hostWithoutRecognition true) initialState).recognitionRef = none ∧
    (∀ u : CaseTable,
      (run (hostWithoutRecognition true) u [Event.toggle]).isListening = true) ∧
    (∀ u : CaseTable, (run (hostWithoutRecognition true) u [Event.toggle]).error = []) :=
  ⟨rfl, fun _ => rfl, fun _ => rfl⟩

/-- C5, amended. On a host without speech recognition, mounting leaves
`recognitionRef` null, the listening flag false and the error field holding
`Speech recognition not supported in this browser`; afterwards, whatever
events arrive, `recognitionRef` stays null and the component never calls the
recognizer's `start()` or `stop()`.  The flag and the message are not
permanent: after `n` clicks on the button the listening flag is true exactly
when `n` is odd, and the error field holds the message only while `n = 0`; it
is empty after the first click. -/
theorem unsupported_host_never_starts_recognizer (synthesis : Bool) (u : CaseTable)
    (events : List Event) (n : Nat) :
    (mount (hostWithoutRecognition synthesis) initialState).error =
      "Speech recognition not supported in this browser".toList ∧
    (mount (hostWithoutRecognition synthesis) initialState).isListening = false ∧
    (run (hostWithoutRecognition synthesis) u events).recognitionRef = none ∧
    (run (hostWithoutRecognition synthesis) u events).effects.count Effect.recognitionStart = 0 ∧
    (run (hostWithoutRecognition synthesis) u events).effects.count Effect.recognitionStop = 0 ∧
    (run (hostWithoutRecognition synthesis) u (List.replicate n Event.toggle)).isListening =
      decide (n % 2 = 1) ∧
    (run (hostWithoutRecognition synthesis) u (List.replicate n Event.toggle)).error =
      if n = 0 then "Speech recognition not supported in this browser".toList else [] := by
  refine ⟨rfl, rfl, ?_, (run_effects_of_no_recognizer synthesis u events).1,
    (run_effects_of_no_recognizer synthesis u events).2, (run_toggles _ u n).1, ?_⟩
  · rw [run_recognitionRef]; rfl
  · rw [(run_toggles _ u n).2]; rfl

/-! ### White space and `trim` -/

theorem trimEnd_append_rest (x : JsString) :
    trimEnd x ++ (x.reverse.takeWhile isWhiteSpace).reverse = x := by
  unfold trimEnd
  rw [← List.reverse_append, List.takeWhile_append_dropWhile, List.reverse_reverse]

theorem trimStart_prepend_rest (x : JsString) :
    x.takeWhile isWhiteSpace ++ trimStart x = x := List.takeWhile_append_dropWhile _ _

theorem trim_head_not_whiteSpace (s : JsString) (c : Char) (h : (trim s).head? = some c) :
    isWhiteSpace c = false := by
  have h1 : (trimStart s).head? = some c := by
    have h2 := trimEnd_append_rest (trimStart s)
    rw [← h2]
    unfold trim at h
    cases hx : trimEnd (trimStart s) with
    | nil => rw [hx] at h; simp at h
    | cons a as => rw [hx] at h; simpa using h
  have h3 := List.head?_dropWhile_not isWhiteSpace s
  unfold trimStart at h1
  rw [h1] at h3
  exact h3

theorem trim_getLast_not_whiteSpace (s : JsString) (c : Char) (h : (trim s).getLast? = some c) :
    isWhiteSpace c = false := by
  unfold trim trimEnd at h
  rw [List.getLast?_reverse] at h
  have h3 := List.head?_dropWhile_not isWhiteSpace (trimStart s).reverse
  rw [h] at h3
  exact h3

/-! ### Dispatch -/

/-- C2, the claim refuted: the transcript ` hi ` has no trigger phrase and is
handed to `performSearch` as it is, not trimmed to `hi`. -/
theorem untriggered_transcript_not_trimmed :
    (∀ u : CaseTable,
      hasTrigger u " hi ".toList = false ∧
      dispatchedQuery u " hi ".toList = some " hi ".toList ∧
      dispatchedQuery u " hi ".toList ≠ some (trim " hi ".toList) ∧
      (processCommand u initialState " hi ".toList).response ≠
        (performSearch u initialState (trim " hi ".toList)).response) ∧
    trim " hi ".toList = "hi".toList := by
  refine ⟨?_, by decide⟩
  intro u
  have h1 : hasTrigger u " hi ".toList = false := rfl
  have h2 : dispatchedQuery u " hi ".toList = some " hi ".toList := by
    unfold dispatchedQuery; rw [h1]; rfl
  have h3 : trim " hi ".toList = "hi".toList := by decide
  refine ⟨h1, h2, ?_, ?_⟩
  · rw [h2, h3]; decide
  · rw [processCommand_eq_dispatch, h2, h3]
    simp only [(performSearch_fields u _ _).2.2.1]
    decide

theorem dispatch_verbatim_of_no_trigger (u : CaseTable) (s : State)
    (t : JsString) (ht : hasTrigger u t = false) (_hne : trim t ≠ []) :
    dispatchedQuery u t = some t ∧ processCommand u s t = performSearch u s t := by
  have h : dispatchedQuery u t = some t := by unfold dispatchedQuery; rw [ht]; rfl
  exact ⟨h, by rw [processCommand_eq_dispatch, h]⟩

/-- C2, amended. For every transcript `t` that contains no trigger phrase and
is not empty or made of white space only, `processCommand` hands `t` itself to
`performSearch`, unchanged: leading and trailing white space are kept. -/
theorem untriggered_transcript_dispatched_verbatim (u : CaseTable) (s : State) (t : JsString)
    (ht : hasTrigger u t = false) (hne : trim t ≠ []) :
    dispatchedQuery u t = some t ∧ processCommand u s t = performSearch u s t :=
  dispatch_verbatim_of_no_trigger u s t ht hne

/-- The amended C2 at the transcript ` hi `. -/
theorem untriggered_transcript_dispatched_verbatim_witness :
    hasTrigger plainCaseTable " hi ".toList = false ∧ trim " hi ".toList ≠ [] ∧
    dispatchedQuery plainCaseTable " hi ".toList = some " hi ".toList ∧
    processCommand plainCaseTable initialState " hi ".toList =
      performSearch plainCaseTable initialState " hi ".toList :=
  ⟨rfl, by decide,
    untriggered_transcript_dispatched_verbatim plainCaseTable initialState " hi ".toList rfl
      (by decide)⟩

/-- C3, the claim refuted: the final transcript ` hi ` is dispatched with its
leading and trailing blanks. -/
theorem dispatch_with_surrounding_whiteSpace :
    (∀ (u : CaseTable) (s : State),
      dispatchedQuery u " hi ".toList = some " hi ".toList ∧
      processCommand u s " hi ".toList = performSearch u s " hi ".toList) ∧
    " hi ".toList.head? = some ' ' ∧ " hi ".toList.getLast? = some ' ' ∧
    isWhiteSpace ' ' = true := by
  refine ⟨?_, rfl, rfl, rfl⟩
  intro u s
  have h1 : hasTrigger u " hi ".toList = false := rfl
  have h2 : dispatchedQuery u " hi ".toList = some " hi ".toList := by
    unfold dispatchedQuery; rw [h1]; rfl
  exact ⟨h2, by rw [processCommand_eq_dispatch, h2]⟩

/-- C3, amended. For every final transcript `t` that contains a trigger
phrase, `processCommand` calls `performSearch` only with the stripped and
trimmed query, which is then non-empty and has no leading or trailing white
space; when that query is empty (the stripped text is empty or white space
only) nothing is dispatched and the state, host calls included, is unchanged.
A transcript without a trigger phrase that is not empty or white space only is
dispatched as it is, with any surrounding white space. -/
theorem processCommand_dispatch_guard (u : CaseTable) (s : State) (t : JsString) :
    (hasTrigger u t = true → ∀ q, dispatchedQuery u t = some q →
      q = trim (stripPhrases t) ∧ q ≠ [] ∧
      (∀ c, q.head? = some c → isWhiteSpace c = false) ∧
      (∀ c, q.getLast? = some c → isWhiteSpace c = false) ∧
      processCommand u s t = performSearch u s q) ∧
    (hasTrigger u t = true → trim (stripPhrases t) = [] →
      dispatchedQuery u t = none ∧ processCommand u s t = s) ∧
    (hasTrigger u t = false → trim t ≠ [] →
      dispatchedQuery u t = some t ∧ processCommand u s t = performSearch u s t) := by
  refine ⟨?_, ?_, dispatch_verbatim_of_no_trigger u s t⟩
  · intro ht q hq
    unfold dispatchedQuery at hq
    rw [if_pos ht] at hq
    by_cases hne : searchQuery t = []
    · simp [hne] at hq
    · rw [if_pos hne] at hq
      have hqe : q = searchQuery t := by simpa using hq.symm
      subst hqe
      refine ⟨rfl, hne, trim_head_not_whiteSpace _, trim_getLast_not_whiteSpace _, ?_⟩
      rw [processCommand_eq_dispatch]
      unfold dispatchedQuery
      rw [if_pos ht, if_pos hne]
  · intro ht he
    have hd : dispatchedQuery u t = none := by
      unfold dispatchedQuery
      rw [if_pos ht]
      simp [searchQuery, he]
    exact ⟨hd, by rw [processCommand_eq_dispatch, hd]⟩

/-! ### Case-insensitive matching and deletion -/

theorem ciStartsWith_append (pat P rest : JsString) (h : ciStartsWith pat P = true) :
    ciStartsWith pat (P ++ rest) = true := by
  induction pat generalizing P with
  | nil => simp [ciStartsWith]
  | cons p ps ih =>
    cases P with
    | nil => simp [ciStartsWith] at h
    | cons c cs =>
      simp only [ciStartsWith, Bool.and_eq_true, List.cons_append] at h ⊢
      exact ⟨h.1, ih cs h.2⟩

theorem ciStartsWith_of_append_pattern (p q s : JsString) (h : ciStartsWith (p ++ q) s = true) :
    ciStartsWith p s = true := by
  induction p generalizing s with
  | nil => simp [ciStartsWith]
  | cons a as ih =>
    cases s with
    | nil => simp [ciStartsWith] at h
    | cons c cs =>
      simp only [ciStartsWith, Bool.and_eq_true, List.cons_append] at h ⊢
      exact ⟨h.1, ih cs h.2⟩

theorem includesCI_of_append_pattern (p q s : JsString) (h : includesCI s (p ++ q) = true) :
    includesCI s p = true := by
  induction s with
  | nil => exact ciStartsWith_of_append_pattern p q [] h
  | cons c cs ih =>
    simp only [includesCI, Bool.or_eq_true] at h ⊢
    rcases h with h | h
    · exact Or.inl (ciStartsWith_of_append_pattern p q _ h)
    · exact Or.inr (ih h)

theorem replaceGo_skip (pat a rest : JsString) :
    replaceGo pat a.length (a ++ rest) = replaceGo pat 0 rest := by
  induction a with
  | nil => rfl
  | cons c cs ih => simpa [replaceGo] using ih

theorem replaceAllCI_casing_append (pat P rest : JsString) (h : isCasingOf pat P = true)
    (hne : pat ≠ []) : replaceAllCI pat (P ++ rest) = replaceAllCI pat rest := by
  simp only [isCasingOf, Bool.and_eq_true, decide_eq_true_eq] at h
  obtain ⟨hlen, hm⟩ := h
  cases P with
  | nil =>
    cases pat with
    | nil => exact absurd rfl hne
    | cons p ps => simp at hlen
  | cons c cs =>
    have hm2 := ciStartsWith_append pat (c :: cs) rest hm
    have hl : pat.length - 1 = cs.length := by simp at hlen; omega
    unfold replaceAllCI
    rw [List.cons_append] at hm2 ⊢
    rw [replaceGo, if_pos hm2, hl, replaceGo_skip]

theorem replaceAllCI_of_not_includesCI (pat s : JsString) (h : includesCI s pat = false) :
    replaceAllCI pat s = s := by
  unfold replaceAllCI
  induction s with
  | nil => rfl
  | cons c cs ih =>
    simp only [includesCI, Bool.or_eq_false_iff] at h
    rw [replaceGo, if_neg (by simp [h.1]), ih h.2]

theorem includesCI_cons_of_head_ne (p c : Char) (ps s : JsString)
    (hne : canonicalize p ≠ canonicalize c) :
    includesCI (c :: s) (p :: ps) = includesCI s (p :: ps) := by
  simp [includesCI, ciStartsWith, hne]

theorem includesCI_append_of_heads_ne (p : Char) (ps P s : JsString)
    (hne : ∀ c ∈ P, canonicalize p ≠ canonicalize c) :
    includesCI (P ++ s) (p :: ps) = includesCI s (p :: ps) := by
  induction P with
  | nil => rfl
  | cons c cs ih =>
    rw [List.cons_append, includesCI_cons_of_head_ne p c ps _ (hne c (List.mem_cons_self _ _))]
    exact ih fun d hd => hne d (List.mem_cons_of_mem _ hd)

theorem includesCI_of_append_right (a b p : JsString) (h : includesCI (a ++ b) p = false) :
    includesCI b p = false := by
  induction a with
  | nil => exact h
  | cons c cs ih =>
    cases p with
    | nil => simp [includesCI, ciStartsWith] at h
    | cons q qs =>
      simp only [List.cons_append, includesCI, Bool.or_eq_false_iff] at h
      exact ih h.2

theorem includesCI_of_append_left (a b p : JsString) (h : includesCI (a ++ b) p = false) :
    includesCI a p = false := by
  induction a with
  | nil =>
    cases p with
    | nil => cases b <;> simp [includesCI, ciStartsWith] at h
    | cons q qs => simp [includesCI, ciStartsWith]
  | cons c cs ih =>
    simp only [List.cons_append, includesCI, Bool.or_eq_false_iff] at h ⊢
    refine ⟨?_, ih h.2⟩
    by_contra hc
    have := ciStartsWith_append p (c :: cs) b (by simpa using hc)
    exact Bool.false_ne_true (h.1.symm.trans this)

theorem includesCI_trim (s p : JsString) (h : includesCI s p = false) :
    includesCI (trim s) p = false := by
  have h1 : includesCI (trimStart s) p = false := by
    rw [← trimStart_prepend_rest s] at h
    exact includesCI_of_append_right _ _ p h
  rw [← trimEnd_append_rest (trimStart s)] at h1
  exact includesCI_of_append_left _ _ p h1

theorem triggerFree_trim (s : JsString) (h : triggerFree s) : triggerFree (trim s) :=
  fun p hp => includesCI_trim s p (h p hp)

/-! ### The condition of `processCommand` -/

theorem includes_iff_infix (s p : JsString) : includes s p = true ↔ p <:+: s := by
  induction s with
  | nil => simp [includes, List.isEmpty_iff]
  | cons c cs ih =>
    rw [includes, Bool.or_eq_true, ih, List.infix_cons_iff, List.isPrefixOf_iff_prefix]

theorem hasTrigger_iff (u : CaseTable) (s : JsString) :
    hasTrigger u s = true ↔ ∃ p ∈ triggerPhrases, p <:+: toLowerCase u s := by
  simp [hasTrigger, triggerPhrases, includes_iff_infix, or_assoc]

theorem char_eq_of_toNat_eq (a b : Char) (h : a.toNat = b.toNat) : a = b := by
  rw [← Char.ofNat_toNat a, ← Char.ofNat_toNat b, h]

theorem asciiLower_of_canonicalize_eq (p c : Char)
    (hp : (97 ≤ p.toNat ∧ p.toNat ≤ 122) ∨ p.toNat = 32)
    (h : canonicalize p = canonicalize c) : c.toNat < 128 ∧ asciiLower c = p := by
  unfold canonicalize at h
  unfold asciiLower
  by_cases hc : 97 ≤ c.toNat ∧ c.toNat ≤ 122
  · rw [if_pos hc] at h
    have hcp : c.toNat = p.toNat := by
      rcases hp with hp | hp
      · rw [if_pos hp] at h; omega
      · rw [if_neg (by omega)] at h; omega
    refine ⟨by omega, ?_⟩
    rw [if_neg (by omega)]
    exact char_eq_of_toNat_eq c p hcp
  · rw [if_neg hc] at h
    rcases hp with hp | hp
    · rw [if_pos hp] at h
      refine ⟨by omega, ?_⟩
      rw [if_pos (by omega), show c.toNat + 32 = p.toNat by omega]
      exact Char.ofNat_toNat p
    · rw [if_neg (by omega)] at h
      refine ⟨by omega, ?_⟩
      rw [if_neg (by omega)]
      exact char_eq_of_toNat_eq c p (by omega)

theorem isLowerPhrase_cons (a : Char) (as : JsString) (h : isLowerPhrase (a :: as) = true) :
    ((97 ≤ a.toNat ∧ a.toNat ≤ 122) ∨ a.toNat = 32) ∧ isLowerPhrase as = true := by
  simpa [isLowerPhrase] using h

theorem prefix_toLowerCaseFrom_of_ciStartsWith (u : CaseTable) (p s before : JsString)
    (hp : isLowerPhrase p = true) (h : ciStartsWith p s = true) :
    p <+: toLowerCaseFrom u before s := by
  induction p generalizing s before with
  | nil => exact List.nil_prefix
  | cons a as ih =>
    cases s with
    | nil => simp [ciStartsWith] at h
    | cons c cs =>
      simp only [ciStartsWith, Bool.and_eq_true, beq_iff_eq] at h
      obtain ⟨hlt, hlow⟩ :=
        asciiLower_of_canonicalize_eq a c (isLowerPhrase_cons a as hp).1 h.1
      rw [toLowerCaseFrom, if_pos hlt, hlow, List.singleton_append]
      exact (List.prefix_cons_inj a).2
        (ih cs (before ++ [c]) (isLowerPhrase_cons a as hp).2 h.2)

theorem infix_toLowerCaseFrom_of_includesCI (u : CaseTable) (p s before : JsString)
    (hp : isLowerPhrase p = true) (h : includesCI s p = true) :
    p <:+: toLowerCaseFrom u before s := by
  induction s generalizing before with
  | nil =>
    cases p with
    | nil => exact List.nil_infix
    | cons a as => simp [includesCI, ciStartsWith] at h
  | cons c cs ih =>
    simp only [includesCI, Bool.or_eq_true] at h
    rcases h with h | h
    · exact (prefix_toLowerCaseFrom_of_ciStartsWith u p _ before hp h).isInfix
    · rw [toLowerCaseFrom]
      obtain ⟨x, y, hxy⟩ := ih (before ++ [c]) h
      exact ⟨(if c.toNat < 128 then [asciiLower c] else u before c cs) ++ x, y,
        by rw [← hxy]; simp⟩

theorem triggerPhrases_lower : ∀ p ∈ triggerPhrases, isLowerPhrase p = true := by
  decide

theorem hasTrigger_of_includesCI (u : CaseTable) (s p : JsString) (hp : p ∈ triggerPhrases)
    (h : includesCI s p = true) : hasTrigger u s = true :=
  (hasTrigger_iff u s).2
    ⟨p, hp, infix_toLowerCaseFrom_of_includesCI u p s [] (triggerPhrases_lower p hp) h⟩

theorem triggerFree_of_not_hasTrigger (u : CaseTable) (s : JsString)
    (h : hasTrigger u s = false) : triggerFree s := by
  intro p hp
  by_contra hc
  rw [hasTrigger_of_includesCI u s p hp (by simpa using hc)] at h
  exact Bool.noConfusion h

/-! ### Stripping the phrases -/

theorem includesCI_of_ciStartsWith (p s : JsString) (h : ciStartsWith p s = true) :
    includesCI s p = true := by
  cases s with
  | nil => exact h
  | cons c cs => simp [includesCI, h]

theorem not_includesCI_search_for (s : JsString) (h : triggerFree s) :
    includesCI s "search for".toList = false := by
  by_contra hc
  have h1 := includesCI_of_append_pattern "search".toList " for".toList s (by simpa using hc)
  rw [h "search".toList (by simp [triggerPhrases])] at h1
  exact Bool.false_ne_true h1

theorem stripPhrases_of_triggerFree (s : JsString) (h : triggerFree s) : stripPhrases s = s := by
  unfold stripPhrases
  rw [replaceAllCI_of_not_includesCI _ s (not_includesCI_search_for s h),
    replaceAllCI_of_not_includesCI _ s (h _ (by simp [triggerPhrases])),
    replaceAllCI_of_not_includesCI _ s (h _ (by simp [triggerPhrases])),
    replaceAllCI_of_not_includesCI _ s (h _ (by simp [triggerPhrases])),
    replaceAllCI_of_not_includesCI _ s (h _ (by simp [triggerPhrases]))]

theorem triggerFree_cons_blank (s : JsString) (h : triggerFree s) : triggerFree (' ' :: s) := by
  intro p hp
  have hp2 := hp
  simp only [triggerPhrases, List.mem_cons, List.mem_singleton, List.not_mem_nil, or_false] at hp2
  rcases hp2 with rfl | rfl | rfl | rfl
  all_goals
    rw [show ∀ l : JsString, (' ' :: l) = [' '] ++ l from fun _ => rfl]
    first
    | rw [show "search".toList = 's' :: "earch".toList from rfl]
    | rw [show "google".toList = 'g' :: "oogle".toList from rfl]
    | rw [show "find".toList = 'f' :: "ind".toList from rfl]
    | rw [show "look up".toList = 'l' :: "ook up".toList from rfl]
    rw [includesCI_append_of_heads_ne _ _ [' '] s (by decide)]
    exact h _ hp

theorem trim_cons_blank (s : JsString) : trim (' ' :: s) = trim s := by
  have h : isWhiteSpace ' ' = true := by decide
  simp [trim, trimStart, List.dropWhile_cons, h]

theorem dispatchedQuery_of_hasTrigger (u : CaseTable) (t : JsString)
    (h : hasTrigger u t = true) :
    dispatchedQuery u t = if searchQuery t = [] then none else some (searchQuery t) := by
  unfold dispatchedQuery
  rw [if_pos h]
  by_cases he : searchQuery t = [] <;> simp [he]

/-- C7. For every text `X` in which no trigger phrase occurs in any letter
case and every letter-casing `P` of `search for`, the transcript `P`, blank,
`X` takes the stripping branch of `processCommand`, the five replacements
leave a blank followed by `X`, and the query computed is exactly `trim X`: the
whole phrase is gone, no `for` is left behind and `X` keeps its letter case.
That query is what `performSearch` receives, unless it is empty.  With
`search for cats` the query is `cats`. -/
theorem search_for_prefix_stripped (u : CaseTable) (s : State) (P X : JsString)
    (hP : isCasingOf "search for".toList P = true) (hX : triggerFree X) :
    hasTrigger u (P ++ ' ' :: X) = true ∧
    stripPhrases (P ++ ' ' :: X) = ' ' :: X ∧
    searchQuery (P ++ ' ' :: X) = trim X ∧
    dispatchedQuery u (P ++ ' ' :: X) = (if trim X = [] then none else some (trim X)) ∧
    processCommand u s (P ++ ' ' :: X) = (if trim X = [] then s else performSearch u s (trim X)) ∧
    searchQuery "search for cats".toList = "cats".toList := by
  have hfree := triggerFree_cons_blank X hX
  have hstrip : stripPhrases (P ++ ' ' :: X) = ' ' :: X := by
    have h1 : replaceAllCI "search for".toList (P ++ ' ' :: X) = ' ' :: X := by
      rw [replaceAllCI_casing_append _ P _ hP (by decide),
        replaceAllCI_of_not_includesCI _ _ (not_includesCI_search_for _ hfree)]
    have h2 := stripPhrases_of_triggerFree _ hfree
    unfold stripPhrases at h2 ⊢
    rw [h1]
    rw [replaceAllCI_of_not_includesCI _ _ (not_includesCI_search_for _ hfree)] at h2
    exact h2
  have hq : searchQuery (P ++ ' ' :: X) = trim X := by
    unfold searchQuery
    rw [hstrip, trim_cons_blank]
  have hgate : hasTrigger u (P ++ ' ' :: X) = true := by
    simp only [isCasingOf, Bool.and_eq_true] at hP
    have h1 : ciStartsWith "search".toList P = true :=
      ciStartsWith_of_append_pattern "search".toList " for".toList P hP.2
    exact hasTrigger_of_includesCI u _ "search".toList (by simp [triggerPhrases])
      (includesCI_of_ciStartsWith _ _ (ciStartsWith_append _ P _ h1))
  have hd := dispatchedQuery_of_hasTrigger u _ hgate
  rw [hq] at hd
  refine ⟨hgate, hstrip, hq, hd, ?_, by decide⟩
  rw [processCommand_eq_dispatch, hd]
  by_cases he : trim X = [] <;> simp [he]

/-- C7 at `SEARCH For`, blank, `Cats And Dogs`: the query is `Cats And Dogs`. -/
theorem search_for_prefix_stripped_witness :
    isCasingOf "search for".toList "SEARCH For".toList = true ∧
    triggerFree "Cats And Dogs".toList ∧
    searchQuery ("SEARCH For".toList ++ ' ' :: "Cats And Dogs".toList) =
      trim "Cats And Dogs".toList ∧
    trim "Cats And Dogs".toList = "Cats And Dogs".toList :=
  ⟨by decide, by decide,
    (search_for_prefix_stripped plainCaseTable initialState "SEARCH For".toList
      "Cats And Dogs".toList (by decide) (by decide)).2.2.1, by decide⟩

/-! ### A transcript with several command phrases -/

theorem agree_of_ciStartsWith (x pat P B : JsString) (hlen : P.length = pat.length)
    (hP : ciStartsWith pat P = true) (h : ciStartsWith x (P ++ B) = true) :
    agree x pat = true := by
  induction x generalizing pat P with
  | nil => rfl
  | cons a as ih =>
    cases pat with
    | nil => rfl
    | cons y ys =>
      cases P with
      | nil => simp at hlen
      | cons c cs =>
        simp only [ciStartsWith, Bool.and_eq_true, beq_iff_eq, List.cons_append] at hP h
        simp only [agree, Bool.and_eq_true, beq_iff_eq]
        exact ⟨h.1.trans hP.1.symm, ih ys cs (by simpa using hlen) hP.2 h.2⟩

theorem ciStartsWith_append_split (q A R : JsString) (h : ciStartsWith q (A ++ R) = true) :
    ciStartsWith q A = true ∨ (A.length < q.length ∧ ciStartsWith (q.drop A.length) R = true) := by
  induction A generalizing q with
  | nil =>
    cases q with
    | nil => exact Or.inl rfl
    | cons x xs => exact Or.inr ⟨by simp, by simpa using h⟩
  | cons a as ih =>
    cases q with
    | nil => exact Or.inl rfl
    | cons x xs =>
      simp only [ciStartsWith, Bool.and_eq_true, List.cons_append] at h ⊢
      rcases ih xs h.2 with h1 | h1
      · exact Or.inl ⟨h.1, h1⟩
      · exact Or.inr ⟨by simpa using h1.1, by simpa using h1.2⟩

theorem not_ciStartsWith_crossing (q pat A P B : JsString) (a : Char)
    (hA : includesCI (a :: A) q = false) (hP : isCasingOf pat P = true)
    (hcross : crossFree q pat = true) : ciStartsWith q (a :: A ++ (P ++ B)) = false := by
  simp only [isCasingOf, Bool.and_eq_true, decide_eq_true_eq] at hP
  by_contra hc
  rcases ciStartsWith_append_split q (a :: A) (P ++ B) (by simpa using hc) with h1 | ⟨hlt, h1⟩
  · rw [includesCI_of_ciStartsWith q _ h1] at hA
    exact Bool.noConfusion hA
  · have hag := agree_of_ciStartsWith _ pat P B hP.1 hP.2 h1
    have hag2 : agree (List.drop (A.length + 1) q) pat = true := hag
    have hj := (List.all_eq_true.1 hcross) (a :: A).length (List.mem_range.2 hlt)
    simp at hj
    rw [hag2] at hj
    exact Bool.noConfusion hj

theorem includesCI_cons_false (c : Char) (s p : JsString) (h : includesCI (c :: s) p = false) :
    includesCI s p = false := by
  simp only [includesCI, Bool.or_eq_false_iff] at h
  exact h.2

theorem includesCI_append_right_true (A R p : JsString) (h : includesCI R p = true) :
    includesCI (A ++ R) p = true := by
  induction A with
  | nil => exact h
  | cons a as ih => simp [includesCI, ih]

theorem ciStartsWith_rest_of_casing (p₁ p₂ P B : JsString) (hlen : P.length = p₁.length)
    (h : ciStartsWith (p₁ ++ p₂) (P ++ B) = true) : ciStartsWith p₂ B = true := by
  induction p₁ generalizing P with
  | nil =>
    cases P with
    | nil => exact h
    | cons c cs => simp at hlen
  | cons a as ih =>
    cases P with
    | nil => simp at hlen
    | cons c cs =>
      simp only [ciStartsWith, Bool.and_eq_true, List.cons_append] at h
      exact ih cs (by simpa using hlen) h.2

theorem canonicalize_mem_of_ciStartsWith (pat P : JsString) (hlen : P.length = pat.length)
    (h : ciStartsWith pat P = true) : ∀ d ∈ P, canonicalize d ∈ pat.map canonicalize := by
  induction pat generalizing P with
  | nil =>
    cases P with
    | nil => simp
    | cons c cs => simp at hlen
  | cons a as ih =>
    cases P with
    | nil => simp at hlen
    | cons c cs =>
      simp only [ciStartsWith, Bool.and_eq_true, beq_iff_eq] at h
      intro d hd
      rcases List.mem_cons.1 hd with rfl | hd
      · simp [h.1]
      · exact List.mem_cons_of_mem _ (ih cs (by simpa using hlen) h.2 d hd)


theorem replaceAllCI_gap (pat q G P B : JsString) (hG : includesCI G pat = false)
    (hP : isCasingOf q P = true) (hcross : crossFree pat q = true) :
    replaceAllCI pat (G ++ (P ++ B)) = G ++ replaceAllCI pat (P ++ B) := by
  induction G with
  | nil => rfl
  | cons a as ih =>
    have h1 := not_ciStartsWith_crossing pat q as P B a hG hP hcross
    have h2 := ih (includesCI_cons_false a as pat hG)
    unfold replaceAllCI at h2 ⊢
    rw [List.cons_append] at h1 ⊢
    rw [replaceGo, if_neg (by simp [h1]), h2, List.cons_append]

theorem replaceAllCI_skip_prefix (p : Char) (ps X B : JsString)
    (h : ∀ c ∈ X, canonicalize p ≠ canonicalize c) :
    replaceAllCI (p :: ps) (X ++ B) = X ++ replaceAllCI (p :: ps) B := by
  induction X with
  | nil => rfl
  | cons c cs ih =>
    have h1 : ciStartsWith (p :: ps) (c :: (cs ++ B)) = false := by
      simp [ciStartsWith, h c (List.mem_cons_self _ _)]
    have h2 := ih fun d hd => h d (List.mem_cons_of_mem _ hd)
    unfold replaceAllCI at h2 ⊢
    rw [List.cons_append, replaceGo, if_neg (by simp [h1]), h2, List.cons_append]

theorem replaceAllCI_skip_casing (p : Char) (ps q P B : JsString)
    (hP : isCasingOf q P = true) (hq : canonicalize p ∉ q.map canonicalize) :
    replaceAllCI (p :: ps) (P ++ B) = P ++ replaceAllCI (p :: ps) B := by
  simp only [isCasingOf, Bool.and_eq_true, decide_eq_true_eq] at hP
  apply replaceAllCI_skip_prefix
  intro c hc heq
  exact hq (heq ▸ canonicalize_mem_of_ciStartsWith q P hP.1 hP.2 c hc)

theorem joinOccurrences_nil (present : List JsString) :
    joinOccurrences present [] = [] := rfl

theorem joinOccurrences_cons_present (present : List JsString) (o : PhraseOccurrence)
    (rest : List PhraseOccurrence) (h : o.phrase ∈ present) :
    joinOccurrences present (o :: rest) = o.text ++ (o.after ++ joinOccurrences present rest) := by
  rw [joinOccurrences, if_pos h]

theorem joinOccurrences_cons_absent (present : List JsString) (o : PhraseOccurrence)
    (rest : List PhraseOccurrence) (h : o.phrase ∉ present) :
    joinOccurrences present (o :: rest) = o.after ++ joinOccurrences present rest := by
  rw [joinOccurrences, if_neg h, List.nil_append]

theorem replaceAllCI_joinOccurrences (p : Char) (ps : JsString) (present : List JsString)
    (hnot : (p :: ps) ∉ present) (hself : crossFree (p :: ps) (p :: ps) = true)
    (hcross : ∀ q ∈ present, crossFree (p :: ps) q = true)
    (hhead : ∀ q ∈ present, canonicalize p ∉ q.map canonicalize)
    (occs : List PhraseOccurrence) (hcas : ∀ o ∈ occs, isCasingOf o.phrase o.text = true)
    (G : JsString) (hfree : includesCI (G ++ joinOccurrences [] occs) (p :: ps) = false) :
    replaceAllCI (p :: ps) (G ++ joinOccurrences ((p :: ps) :: present) occs) =
      G ++ joinOccurrences present occs := by
  induction occs generalizing G with
  | nil =>
    rw [joinOccurrences_nil] at hfree ⊢
    rw [joinOccurrences_nil]
    exact replaceAllCI_of_not_includesCI _ _ hfree
  | cons o rest ih =>
    have ih2 := ih fun x hx => hcas x (List.mem_cons_of_mem _ hx)
    have ho := hcas o (List.mem_cons_self _ _)
    rw [joinOccurrences_cons_absent [] o rest (List.not_mem_nil _)] at hfree
    have hG := includesCI_of_append_left _ _ _ hfree
    have hB := includesCI_of_append_right _ _ _ hfree
    by_cases h1 : o.phrase = p :: ps
    · rw [joinOccurrences_cons_present _ o rest (h1 ▸ List.mem_cons_self _ _),
        joinOccurrences_cons_absent present o rest (h1 ▸ hnot),
        replaceAllCI_gap _ (p :: ps) G o.text _ hG (h1 ▸ ho) hself,
        replaceAllCI_casing_append _ o.text _ (h1 ▸ ho) (List.cons_ne_nil _ _),
        ih2 o.after hB]
    · by_cases h2 : o.phrase ∈ present
      · rw [joinOccurrences_cons_present _ o rest (List.mem_cons_of_mem _ h2),
          joinOccurrences_cons_present present o rest h2,
          replaceAllCI_gap _ o.phrase G o.text _ hG ho (hcross _ h2),
          replaceAllCI_skip_casing p ps o.phrase o.text _ ho (hhead _ h2),
          ih2 o.after hB]
      · have h3 : o.phrase ∉ (p :: ps) :: present := by
          intro hm
          rcases List.mem_cons.1 hm with hm | hm
          · exact h1 hm
          · exact h2 hm
        rw [joinOccurrences_cons_absent _ o rest h3,
          joinOccurrences_cons_absent present o rest h2, ← List.append_assoc,
          ih2 (G ++ o.after) (by rw [List.append_assoc]; exact hfree), List.append_assoc]

theorem replaceAllCI_search_for_skip_search (P B : JsString)
    (hP : isCasingOf "search".toList P = true)
    (hfor : ciStartsWith " for".toList B = false) :
    replaceAllCI "search for".toList (P ++ B) = P ++ replaceAllCI "search for".toList B := by
  have hP2 := hP
  simp only [isCasingOf, Bool.and_eq_true, decide_eq_true_eq] at hP2
  cases P with
  | nil => simp at hP2
  | cons c cs =>
    have h1 : ciStartsWith "search for".toList (c :: cs ++ B) = false := by
      by_contra hc
      have h2 := ciStartsWith_rest_of_casing "search".toList " for".toList (c :: cs) B hP2.1
        (by simpa using hc)
      rw [hfor] at h2
      exact Bool.false_ne_true h2
    have h3 : replaceAllCI "search for".toList (cs ++ B) =
        cs ++ replaceAllCI "search for".toList B := by
      apply replaceAllCI_skip_prefix 's' "earch for".toList cs B
      intro d hd heq
      simp only [ciStartsWith, Bool.and_eq_true] at hP2
      have hm := canonicalize_mem_of_ciStartsWith "earch".toList cs
        (by simpa using hP2.1) hP2.2.2 d hd
      rw [← heq] at hm
      revert hm
      decide
    unfold replaceAllCI at h3 ⊢
    rw [List.cons_append] at h1 ⊢
    rw [replaceGo, if_neg (by rw [h1]; exact Bool.false_ne_true), h3, List.cons_append]

theorem wellFormedOccurrences_cons (o : PhraseOccurrence) (rest : List PhraseOccurrence)
    (h : wellFormedOccurrences (o :: rest) = true) :
    o.phrase ∈ strippedPhrases ∧ isCasingOf o.phrase o.text = true ∧
    (o.phrase = "search".toList →
      ciStartsWith " for".toList (o.after ++ joinOccurrences strippedPhrases rest) = false) ∧
    wellFormedOccurrences rest = true := by
  rw [wellFormedOccurrences, Bool.and_eq_true, Bool.and_eq_true, Bool.and_eq_true,
    Bool.or_eq_true] at h
  obtain ⟨⟨⟨h1, h2⟩, h3⟩, h4⟩ := h
  refine ⟨by simpa using h1, h2, ?_, h4⟩
  intro he
  rcases h3 with h3 | h3
  · rw [he] at h3
    exact absurd h3 (by decide)
  · simpa using h3

theorem wellFormedOccurrences_mem (occs : List PhraseOccurrence)
    (h : wellFormedOccurrences occs = true) :
    ∀ o ∈ occs, o.phrase ∈ strippedPhrases ∧ isCasingOf o.phrase o.text = true := by
  induction occs with
  | nil => intro o ho; cases ho
  | cons a rest ih =>
    obtain ⟨h1, h2, -, h4⟩ := wellFormedOccurrences_cons a rest h
    intro o ho
    rcases List.mem_cons.1 ho with rfl | ho
    · exact ⟨h1, h2⟩
    · exact ih h4 o ho

theorem replaceAllCI_search_for_joinOccurrences (occs : List PhraseOccurrence)
    (hwf : wellFormedOccurrences occs = true) (G : JsString)
    (hfree : includesCI (G ++ joinOccurrences [] occs) "search for".toList = false) :
    replaceAllCI "search for".toList (G ++ joinOccurrences strippedPhrases occs) =
      G ++ joinOccurrences triggerPhrases occs := by
  induction occs generalizing G with
  | nil =>
    rw [joinOccurrences_nil] at hfree ⊢
    rw [joinOccurrences_nil]
    exact replaceAllCI_of_not_includesCI _ _ hfree
  | cons o rest ih =>
    obtain ⟨hmem, ho, hfor, hrest⟩ := wellFormedOccurrences_cons o rest hwf
    have ih2 := ih hrest
    rw [joinOccurrences_cons_absent [] o rest (List.not_mem_nil _)] at hfree
    have hG := includesCI_of_append_left _ _ _ hfree
    have hB := includesCI_of_append_right _ _ _ hfree
    rw [joinOccurrences_cons_present _ o rest hmem]
    by_cases h1 : o.phrase = "search for".toList
    · rw [joinOccurrences_cons_absent triggerPhrases o rest (by rw [h1]; decide),
        replaceAllCI_gap _ "search for".toList G o.text _ hG (h1 ▸ ho) (by decide),
        replaceAllCI_casing_append _ o.text _ (h1 ▸ ho) (by decide), ih2 o.after hB]
    · have hmem2 : o.phrase ∈ triggerPhrases := by
        rcases List.mem_cons.1 hmem with hm | hm
        · exact absurd hm h1
        · exact hm
      rw [joinOccurrences_cons_present triggerPhrases o rest hmem2]
      by_cases h2 : o.phrase = "search".toList
      · rw [replaceAllCI_gap _ "search".toList G o.text _ hG (h2 ▸ ho) (by decide),
          replaceAllCI_search_for_skip_search o.text _ (h2 ▸ ho) (hfor h2), ih2 o.after hB]
      · have hmem3 : o.phrase ∈ ["google".toList, "find".toList, "look up".toList] := by
          rcases List.mem_cons.1 hmem2 with hm | hm
          · exact absurd hm h2
          · exact hm
        have hc : ∀ q ∈ ["google".toList, "find".toList, "look up".toList],
            crossFree "search for".toList q = true ∧
            canonicalize 's' ∉ q.map canonicalize := by decide
        have h3 : replaceAllCI "search for".toList (o.text ++ (o.after ++
            joinOccurrences strippedPhrases rest)) = o.text ++ replaceAllCI "search for".toList
              (o.after ++ joinOccurrences strippedPhrases rest) :=
          replaceAllCI_skip_casing 's' "earch for".toList o.phrase o.text _ ho (hc _ hmem3).2
        rw [replaceAllCI_gap _ o.phrase G o.text _ hG ho (hc _ hmem3).1, h3, ih2 o.after hB]

theorem stripPhrases_joinOccurrences (A₀ : JsString) (occs : List PhraseOccurrence)
    (hwf : wellFormedOccurrences occs = true)
    (hfree : triggerFree (A₀ ++ joinOccurrences [] occs)) :
    stripPhrases (A₀ ++ joinOccurrences strippedPhrases occs) =
      A₀ ++ joinOccurrences [] occs := by
  have hcas : ∀ o ∈ occs, isCasingOf o.phrase o.text = true :=
    fun o ho => (wellFormedOccurrences_mem occs hwf o ho).2
  have h1 := replaceAllCI_search_for_joinOccurrences occs hwf A₀
    (not_includesCI_search_for _ hfree)
  have h2 : replaceAllCI "search".toList (A₀ ++ joinOccurrences triggerPhrases occs) =
      A₀ ++ joinOccurrences ["google".toList, "find".toList, "look up".toList] occs :=
    replaceAllCI_joinOccurrences 's' "earch".toList _ (by decide) (by decide) (by decide)
      (by decide) occs hcas A₀ (hfree _ (by simp [triggerPhrases]))
  have h3 : replaceAllCI "google".toList
      (A₀ ++ joinOccurrences ["google".toList, "find".toList, "look up".toList] occs) =
      A₀ ++ joinOccurrences ["find".toList, "look up".toList] occs :=
    replaceAllCI_joinOccurrences 'g' "oogle".toList _ (by decide) (by decide) (by decide)
      (by decide) occs hcas A₀ (hfree _ (by simp [triggerPhrases]))
  have h4 : replaceAllCI "find".toList
      (A₀ ++ joinOccurrences ["find".toList, "look up".toList] occs) =
      A₀ ++ joinOccurrences ["look up".toList] occs :=
    replaceAllCI_joinOccurrences 'f' "ind".toList _ (by decide) (by decide) (by decide)
      (by decide) occs hcas A₀ (hfree _ (by simp [triggerPhrases]))
  have h5 : replaceAllCI "look up".toList (A₀ ++ joinOccurrences ["look up".toList] occs) =
      A₀ ++ joinOccurrences [] occs :=
    replaceAllCI_joinOccurrences 'l' "ook up".toList _ (by decide) (by decide) (by decide)
      (by decide) occs hcas A₀ (hfree _ (by simp [triggerPhrases]))
  unfold stripPhrases
  rw [h1, h2, h3, h4, h5]

theorem hasTrigger_of_occurrence (u : CaseTable) (p A P B : JsString)
    (hp : p ∈ strippedPhrases) (hP : isCasingOf p P = true) :
    hasTrigger u (A ++ (P ++ B)) = true := by
  simp only [isCasingOf, Bool.and_eq_true] at hP
  simp only [strippedPhrases, List.mem_cons, List.mem_singleton, List.not_mem_nil,
    or_false] at hp
  rcases hp with rfl | rfl | rfl | rfl | rfl
  · exact hasTrigger_of_includesCI u _ "search".toList (by simp [triggerPhrases])
      (includesCI_append_right_true A _ _ (includesCI_of_ciStartsWith _ _
        (ciStartsWith_append _ P _
          (ciStartsWith_of_append_pattern "search".toList " for".toList P hP.2))))
  all_goals
    exact hasTrigger_of_includesCI u _ _ (by simp [triggerPhrases])
      (includesCI_append_right_true A _ _ (includesCI_of_ciStartsWith _ _
        (ciStartsWith_append _ P _ hP.2)))

theorem hasTrigger_joinOccurrences (u : CaseTable) (A₀ : JsString)
    (occs : List PhraseOccurrence) (hne : occs ≠ [])
    (hwf : wellFormedOccurrences occs = true) :
    hasTrigger u (A₀ ++ joinOccurrences strippedPhrases occs) = true := by
  cases occs with
  | nil => exact absurd rfl hne
  | cons o rest =>
    obtain ⟨hmem, ho, -, -⟩ := wellFormedOccurrences_cons o rest hwf
    rw [joinOccurrences_cons_present _ o rest hmem]
    exact hasTrigger_of_occurrence u o.phrase A₀ o.text _ hmem ho

/-! ### White space around a phrase -/

theorem canonicalize_whiteSpace (c : Char) (h : isWhiteSpace c = true) :
    canonicalize c < 65 ∨ 90 < canonicalize c := by
  unfold canonicalize
  simp only [isWhiteSpace, Bool.or_eq_true, Bool.and_eq_true, beq_iff_eq,
    decide_eq_true_eq] at h
  split <;> omega

theorem canonicalize_letter (d : Char) (h : 97 ≤ d.toNat ∧ d.toNat ≤ 122) :
    65 ≤ canonicalize d ∧ canonicalize d ≤ 90 := by
  unfold canonicalize
  rw [if_pos h]
  omega

theorem canonicalize_pattern_mem (q w : JsString) (h : ciStartsWith q w = true) :
    ∀ d ∈ q, canonicalize d ∈ w.map canonicalize := by
  induction q generalizing w with
  | nil => intro d hd; cases hd
  | cons a as ih =>
    cases w with
    | nil => simp [ciStartsWith] at h
    | cons c cs =>
      simp only [ciStartsWith, Bool.and_eq_true, beq_iff_eq] at h
      intro d hd
      rcases List.mem_cons.1 hd with rfl | hd
      · simp [h.1]
      · exact List.mem_cons_of_mem _ (ih cs h.2 d hd)

theorem not_ciStartsWith_whiteSpace (p w : JsString) (j : Nat) (hj : j < p.length)
    (hp : endsInLetter p = true) (hw : ∀ c ∈ w, isWhiteSpace c = true) :
    ciStartsWith (p.drop j) w = false := by
  by_contra hc
  have hmem := canonicalize_pattern_mem (p.drop j) w (by simpa using hc)
  have hl := (List.all_eq_true.1 hp) j (List.mem_range.2 hj)
  obtain ⟨d, hd, hlet⟩ := List.any_eq_true.1 hl
  simp only [Bool.and_eq_true, decide_eq_true_eq] at hlet
  obtain ⟨c, hcw, hcd⟩ := List.mem_map.1 (hmem d hd)
  have h1 := canonicalize_whiteSpace c (hw c hcw)
  have h2 := canonicalize_letter d hlet
  omega

theorem includesCI_whiteSpace (p w : JsString) (hne : p ≠ []) (hp : endsInLetter p = true)
    (hw : ∀ c ∈ w, isWhiteSpace c = true) : includesCI w p = false := by
  have hlen : 0 < p.length := List.length_pos.2 hne
  induction w with
  | nil =>
    cases p with
    | nil => exact absurd rfl hne
    | cons a as => rfl
  | cons c cs ih =>
    rw [includesCI, Bool.or_eq_false_iff]
    exact ⟨not_ciStartsWith_whiteSpace p (c :: cs) 0 hlen hp hw,
      ih fun d hd => hw d (List.mem_cons_of_mem _ hd)⟩

theorem includesCI_of_append_whiteSpace (p z w : JsString) (hne : p ≠ [])
    (hp : endsInLetter p = true) (hw : ∀ c ∈ w, isWhiteSpace c = true)
    (h : includesCI (z ++ w) p = true) : includesCI z p = true := by
  induction z with
  | nil =>
    rw [List.nil_append, includesCI_whiteSpace p w hne hp hw] at h
    exact absurd h Bool.false_ne_true
  | cons c cs ih =>
    rw [List.cons_append, includesCI, Bool.or_eq_true] at h
    rw [includesCI, Bool.or_eq_true]
    rcases h with h | h
    · rcases ciStartsWith_append_split p (c :: cs) w h with h1 | ⟨hlt, h1⟩
      · exact Or.inl h1
      · rw [not_ciStartsWith_whiteSpace p w _ hlt hp hw] at h1
        exact absurd h1 Bool.false_ne_true
    · exact Or.inr (ih h)

theorem includesCI_of_whiteSpace_append (p : Char) (ps w y : JsString)
    (hp : 97 ≤ p.toNat ∧ p.toNat ≤ 122) (hw : ∀ c ∈ w, isWhiteSpace c = true) :
    includesCI (w ++ y) (p :: ps) = includesCI y (p :: ps) := by
  apply includesCI_append_of_heads_ne
  intro c hc heq
  have h1 := canonicalize_whiteSpace c (hw c hc)
  have h2 := canonicalize_letter p hp
  omega

theorem includesCI_trim_of_includesCI (p : Char) (ps x : JsString)
    (hp : 97 ≤ p.toNat ∧ p.toNat ≤ 122) (hend : endsInLetter (p :: ps) = true)
    (h : includesCI x (p :: ps) = true) : includesCI (trim x) (p :: ps) = true := by
  have h1 : includesCI (trimStart x) (p :: ps) = true := by
    rw [← trimStart_prepend_rest x, includesCI_of_whiteSpace_append p ps _ _ hp] at h
    · exact h
    · intro c hc
      exact (List.mem_takeWhile_imp hc)
  rw [← trimEnd_append_rest (trimStart x)] at h1
  apply includesCI_of_append_whiteSpace (p :: ps) _ _ (List.cons_ne_nil _ _) hend _ h1
  intro c hc
  exact List.mem_takeWhile_imp (List.mem_reverse.1 hc)

theorem triggerFree_of_trim (x : JsString) (h : triggerFree (trim x)) : triggerFree x := by
  intro q hq
  have hq2 := hq
  simp only [triggerPhrases, List.mem_cons, List.mem_singleton, List.not_mem_nil,
    or_false] at hq2
  by_contra hc
  have hc2 : includesCI x q = true := by simpa using hc
  have key : includesCI (trim x) q = true := by
    rcases hq2 with rfl | rfl | rfl | rfl
    · exact includesCI_trim_of_includesCI 's' "earch".toList x (by decide) (by decide) hc2
    · exact includesCI_trim_of_includesCI 'g' "oogle".toList x (by decide) (by decide) hc2
    · exact includesCI_trim_of_includesCI 'f' "ind".toList x (by decide) (by decide) hc2
    · exact includesCI_trim_of_includesCI 'l' "ook up".toList x (by decide) (by decide) hc2
  rw [h q hq] at key
  exact Bool.false_ne_true key

/-! ### Stripping a second time -/

theorem length_replaceGo_le (pat s : JsString) (k : Nat) :
    (replaceGo pat k s).length ≤ s.length := by
  induction s generalizing k with
  | nil => simp [replaceGo]
  | cons c cs ih =>
    cases k with
    | zero =>
      rw [replaceGo]
      split
      · exact Nat.le_succ_of_le (ih _)
      · simpa using ih 0
    | succ k => rw [replaceGo]; exact Nat.le_succ_of_le (ih k)

theorem length_replaceAllCI_le (pat s : JsString) :
    (replaceAllCI pat s).length ≤ s.length := length_replaceGo_le pat s 0

theorem length_replaceAllCI_lt (pat s : JsString) (hne : pat ≠ [])
    (h : includesCI s pat = true) : (replaceAllCI pat s).length < s.length := by
  unfold replaceAllCI
  induction s with
  | nil =>
    cases pat with
    | nil => exact absurd rfl hne
    | cons a as => simp [includesCI, ciStartsWith] at h
  | cons c cs ih =>
    rw [replaceGo]
    split
    · exact Nat.lt_succ_of_le (length_replaceGo_le _ _ _)
    · rename_i hn
      rw [includesCI, Bool.or_eq_true] at h
      rcases h with h | h
      · exact absurd h hn
      · simpa using ih h

theorem not_includesCI_of_length_eq (pat s : JsString) (hne : pat ≠ [])
    (h : s.length ≤ (replaceAllCI pat s).length) : includesCI s pat = false := by
  by_contra hc
  have := length_replaceAllCI_lt pat s hne (by simpa using hc)
  omega

theorem not_includesCI_of_stripPhrases_eq (s : JsString) (h : stripPhrases s = s) :
    includesCI s "search for".toList = false ∧ triggerFree s := by
  have hl := congrArg List.length h
  unfold stripPhrases at hl
  have l5 := length_replaceAllCI_le "look up".toList (replaceAllCI "find".toList
    (replaceAllCI "google".toList (replaceAllCI "search".toList
      (replaceAllCI "search for".toList s))))
  have l4 := length_replaceAllCI_le "find".toList (replaceAllCI "google".toList
    (replaceAllCI "search".toList (replaceAllCI "search for".toList s)))
  have l3 := length_replaceAllCI_le "google".toList
    (replaceAllCI "search".toList (replaceAllCI "search for".toList s))
  have l2 := length_replaceAllCI_le "search".toList (replaceAllCI "search for".toList s)
  have l1 := length_replaceAllCI_le "search for".toList s
  have n1 := not_includesCI_of_length_eq "search for".toList s (by decide) (by omega)
  have e1 := replaceAllCI_of_not_includesCI _ _ n1
  rw [e1] at hl l2 l3 l4 l5
  have n2 := not_includesCI_of_length_eq "search".toList s (by decide) (by omega)
  have e2 := replaceAllCI_of_not_includesCI _ _ n2
  rw [e2] at hl l3 l4 l5
  have n3 := not_includesCI_of_length_eq "google".toList s (by decide) (by omega)
  have e3 := replaceAllCI_of_not_includesCI _ _ n3
  rw [e3] at hl l4 l5
  have n4 := not_includesCI_of_length_eq "find".toList s (by decide) (by omega)
  have e4 := replaceAllCI_of_not_includesCI _ _ n4
  rw [e4] at hl l5
  have n5 := not_includesCI_of_length_eq "look up".toList s (by decide) (by omega)
  refine ⟨n1, ?_⟩
  intro q hq
  simp only [triggerPhrases, List.mem_cons, List.mem_singleton, List.not_mem_nil,
    or_false] at hq
  rcases hq with rfl | rfl | rfl | rfl
  · exact n2
  · exact n3
  · exact n4
  · exact n5

theorem stripPhrases_idempotent_iff (t : JsString) :
    stripPhrases (stripPhrases t) = stripPhrases t ↔ triggerFree (searchQuery t) := by
  constructor
  · intro h
    exact triggerFree_trim _ (not_includesCI_of_stripPhrases_eq _ h).2
  · intro h
    exact stripPhrases_of_triggerFree _ (triggerFree_of_trim _ h)

/-! ### Transcripts of ASCII characters -/

theorem toNat_ofNat_lower (n : Nat) (h : 65 ≤ n ∧ n ≤ 90) :
    (Char.ofNat (n + 32)).toNat = n + 32 := by
  obtain ⟨h1, h2⟩ := h
  interval_cases n <;> rfl

theorem canonicalize_asciiLower (c : Char) : canonicalize (asciiLower c) = canonicalize c := by
  unfold asciiLower
  by_cases h : 65 ≤ c.toNat ∧ c.toNat ≤ 90
  · rw [if_pos h]
    unfold canonicalize
    rw [toNat_ofNat_lower _ h, if_pos (by omega), if_neg (by omega)]
    omega
  · rw [if_neg h]

theorem toLowerCaseFrom_ascii (u : CaseTable) (s before : JsString)
    (h : ∀ c ∈ s, c.toNat < 128) : toLowerCaseFrom u before s = s.map asciiLower := by
  induction s generalizing before with
  | nil => rfl
  | cons c cs ih =>
    rw [toLowerCaseFrom, if_pos (h c (List.mem_cons_self _ _)),
      ih _ fun d hd => h d (List.mem_cons_of_mem _ hd)]
    rfl

theorem ciStartsWith_of_isPrefixOf_lower (p s : JsString)
    (h : p.isPrefixOf (s.map asciiLower) = true) : ciStartsWith p s = true := by
  induction p generalizing s with
  | nil => rfl
  | cons a as ih =>
    cases s with
    | nil => simp [List.isPrefixOf] at h
    | cons c cs =>
      simp only [List.map_cons, List.isPrefixOf, Bool.and_eq_true, beq_iff_eq] at h
      simp only [ciStartsWith, Bool.and_eq_true, beq_iff_eq]
      exact ⟨by rw [h.1, canonicalize_asciiLower], ih cs h.2⟩

theorem includesCI_of_includes_lower (p s : JsString)
    (h : includes (s.map asciiLower) p = true) : includesCI s p = true := by
  induction s with
  | nil =>
    cases p with
    | nil => rfl
    | cons a as => simp [includes] at h
  | cons c cs ih =>
    rw [List.map_cons, includes, Bool.or_eq_true] at h
    rw [includesCI, Bool.or_eq_true]
    rcases h with h | h
    · exact Or.inl (ciStartsWith_of_isPrefixOf_lower p (c :: cs) h)
    · exact Or.inr (ih h)

theorem not_hasTrigger_of_triggerFree_ascii (u : CaseTable) (s : JsString)
    (hs : ∀ c ∈ s, c.toNat < 128) (h : triggerFree s) : hasTrigger u s = false := by
  have h1 := h "search".toList (by simp [triggerPhrases])
  have h2 := h "google".toList (by simp [triggerPhrases])
  have h3 := h "find".toList (by simp [triggerPhrases])
  have h4 := h "look up".toList (by simp [triggerPhrases])
  have key : ∀ p : JsString, includesCI s p = false →
      includes (toLowerCase u s) p = false := by
    intro p hp
    by_contra hc
    rw [toLowerCase, toLowerCaseFrom_ascii u s [] hs] at hc
    rw [includesCI_of_includes_lower p s (by simpa using hc)] at hp
    exact Bool.noConfusion hp
  show (includes (toLowerCase u s) "search".toList ||
    includes (toLowerCase u s) "google".toList || includes (toLowerCase u s) "find".toList ||
    includes (toLowerCase u s) "look up".toList) = false
  rw [key _ h1, key _ h2, key _ h3, key _ h4]
  rfl

theorem mem_of_mem_replaceGo (pat s : JsString) (k : Nat) :
    ∀ c ∈ replaceGo pat k s, c ∈ s := by
  induction s generalizing k with
  | nil => intro c hc; simp [replaceGo] at hc
  | cons a as ih =>
    intro c hc
    cases k with
    | zero =>
      rw [replaceGo] at hc
      split at hc
      · exact List.mem_cons_of_mem _ (ih _ c hc)
      · rcases List.mem_cons.1 hc with rfl | hc
        · exact List.mem_cons_self _ _
        · exact List.mem_cons_of_mem _ (ih _ c hc)
    | succ k =>
      rw [replaceGo] at hc
      exact List.mem_cons_of_mem _ (ih _ c hc)

theorem mem_of_mem_trim (s : JsString) : ∀ c ∈ trim s, c ∈ s := by
  intro c hc
  unfold trim trimEnd trimStart at hc
  have h1 := (List.dropWhile_sublist isWhiteSpace).subset (List.mem_reverse.1 hc)
  exact (List.dropWhile_sublist isWhiteSpace).subset (List.mem_reverse.1 h1)

theorem searchQuery_ascii (t : JsString) (ht : ∀ c ∈ t, c.toNat < 128) :
    ∀ c ∈ searchQuery t, c.toNat < 128 := by
  intro c hc
  apply ht
  have h1 := mem_of_mem_trim _ c hc
  unfold stripPhrases replaceAllCI at h1
  exact mem_of_mem_replaceGo _ _ _ c (mem_of_mem_replaceGo _ _ _ c (mem_of_mem_replaceGo _ _ _ c
    (mem_of_mem_replaceGo _ _ _ c (mem_of_mem_replaceGo _ _ _ c h1))))

/-- C1, the claim refuted: `seasearchrch` contains the trigger phrase `search`;
deleting the one match found by the scan splices the two ends together and the
query handed to `performSearch` is `search`, in which the test of
`processCommand` itself finds a trigger phrase.  What happens to a spliced
phrase depends on the order of the replacements: in `seafindrch` the phrase
`search` appears after its replacement has run and stays, in `lofindok up` the
phrase `look up` appears before its replacement and is deleted. -/
theorem spliced_trigger_phrase_survives :
    (∀ u : CaseTable, hasTrigger u "seasearchrch".toList = true) ∧
    replaceAllCI "search".toList "seasearchrch".toList = "search".toList ∧
    searchQuery "seasearchrch".toList = "search".toList ∧
    (∀ u : CaseTable, dispatchedQuery u "seasearchrch".toList = some "search".toList) ∧
    (∀ u : CaseTable, hasTrigger u (searchQuery "seasearchrch".toList) = true) ∧
    includesCI (searchQuery "seasearchrch".toList) "search".toList = true ∧
    ¬ triggerFree (searchQuery "seasearchrch".toList) ∧
    searchQuery "seafindrch".toList = "search".toList ∧
    searchQuery "lofindok up".toList = [] := by
  have h1 : ∀ u : CaseTable, hasTrigger u "seasearchrch".toList = true := fun _ => rfl
  have h2 : searchQuery "seasearchrch".toList = "search".toList := by decide
  refine ⟨h1, by decide, h2, ?_, ?_, by decide, by decide, by decide, by decide⟩
  · intro u
    rw [dispatchedQuery_of_hasTrigger u _ (h1 u), h2]
    rfl
  · intro u
    rw [h2]
    rfl

/-- C1, amended. Take a transcript split into a first gap `A₀` and one or more
occurrences of command phrases, each a letter-casing of one of the five stripped
phrases followed by a gap (a `search` directly followed by ` for` has to be
given as `search for`).  If the test of `processCommand` (lower-casing, then
`includes`) finds no trigger phrase in the trimmed text of the gaps, then the
transcript takes the stripping branch, the five replacements delete every
occurrence and nothing else, the query is the trimmed text of the gaps, the
same test finds no trigger phrase in the query and none occurs in it in any
letter case.  Beyond such transcripts a deletion can splice a phrase together:
for every transcript of ASCII characters the test finds no trigger phrase in
the query exactly when applying the five replacements to their own result
changes nothing, and for every transcript no trigger phrase occurs in the
query in any letter case exactly in that case. -/
theorem phrase_occurrences_stripped :
    (∀ (u : CaseTable) (A₀ : JsString) (occs : List PhraseOccurrence),
      occs ≠ [] → wellFormedOccurrences occs = true →
      hasTrigger u (trim (A₀ ++ joinOccurrences [] occs)) = false →
        hasTrigger u (A₀ ++ joinOccurrences strippedPhrases occs) = true ∧
        stripPhrases (A₀ ++ joinOccurrences strippedPhrases occs) =
          A₀ ++ joinOccurrences [] occs ∧
        searchQuery (A₀ ++ joinOccurrences strippedPhrases occs) =
          trim (A₀ ++ joinOccurrences [] occs) ∧
        hasTrigger u (searchQuery (A₀ ++ joinOccurrences strippedPhrases occs)) = false ∧
        triggerFree (searchQuery (A₀ ++ joinOccurrences strippedPhrases occs))) ∧
    (∀ (u : CaseTable) (t : JsString), (∀ c ∈ t, c.toNat < 128) →
      (hasTrigger u (searchQuery t) = false ↔
        stripPhrases (stripPhrases t) = stripPhrases t)) ∧
    (∀ t : JsString,
      triggerFree (searchQuery t) ↔ stripPhrases (stripPhrases t) = stripPhrases t) := by
  refine ⟨?_, ?_, fun t => (stripPhrases_idempotent_iff t).symm⟩
  · intro u A₀ occs hne hwf hclean
    have hfree : triggerFree (A₀ ++ joinOccurrences [] occs) :=
      triggerFree_of_trim _ (triggerFree_of_not_hasTrigger u _ hclean)
    have hs := stripPhrases_joinOccurrences A₀ occs hwf hfree
    have hq : searchQuery (A₀ ++ joinOccurrences strippedPhrases occs) =
        trim (A₀ ++ joinOccurrences [] occs) := by rw [searchQuery, hs]
    refine ⟨hasTrigger_joinOccurrences u A₀ occs hne hwf, hs, hq, ?_, ?_⟩
    · rw [hq]; exact hclean
    · rw [hq]; exact triggerFree_trim _ hfree
  · intro u t ht
    constructor
    · intro h
      exact (stripPhrases_idempotent_iff t).2 (triggerFree_of_not_hasTrigger u _ h)
    · intro h
      exact not_hasTrigger_of_triggerFree_ascii u _ (searchQuery_ascii t ht)
        ((stripPhrases_idempotent_iff t).1 h)

/-- The amended C1 at `search cats Search dogs`, two occurrences of `search`:
both are deleted and the query is `cats  dogs`. -/
theorem phrase_occurrences_stripped_witness :
    wellFormedOccurrences
      [{ phrase := "search".toList, text := "search".toList, after := " cats ".toList },
       { phrase := "search".toList, text := "Search".toList, after := " dogs".toList }] = true ∧
    hasTrigger plainCaseTable (trim ([] ++ joinOccurrences []
      [{ phrase := "search".toList, text := "search".toList, after := " cats ".toList },
       { phrase := "search".toList, text := "Search".toList, after := " dogs".toList }]))
      = false ∧
    [] ++ joinOccurrences strippedPhrases
      [{ phrase := "search".toList, text := "search".toList, after := " cats ".toList },
       { phrase := "search".toList, text := "Search".toList, after := " dogs".toList }] =
      "search cats Search dogs".toList ∧
    trim ([] ++ joinOccurrences []
      [{ phrase := "search".toList, text := "search".toList, after := " cats ".toList },
       { phrase := "search".toList, text := "Search".toList, after := " dogs".toList }]) =
      "cats  dogs".toList ∧
    searchQuery ([] ++ joinOccurrences strippedPhrases
      [{ phrase := "search".toList, text := "search".toList, after := " cats ".toList },
       { phrase := "search".toList, text := "Search".toList, after := " dogs".toList }]) =
      trim ([] ++ joinOccurrences []
        [{ phrase := "search".toList, text := "search".toList, after := " cats ".toList },
         { phrase := "search".toList, text := "Search".toList, after := " dogs".toList }]) ∧
    hasTrigger plainCaseTable (searchQuery ([] ++ joinOccurrences strippedPhrases
      [{ phrase := "search".toList, text := "search".toList, after := " cats ".toList },
       { phrase := "search".toList, text := "Search".toList, after := " dogs".toList }]))
      = false :=
  ⟨by decide, rfl, by decide, by decide,
    (phrase_occurrences_stripped.1 plainCaseTable []
      [{ phrase := "search".toList, text := "search".toList, after := " cats ".toList },
       { phrase := "search".toList, text := "Search".toList, after := " dogs".toList }]
      (by decide) (by decide) rfl).2.2.1,
    (phrase_occurrences_stripped.1 plainCaseTable []
      [{ phrase := "search".toList, text := "search".toList, after := " cats ".toList },
       { phrase := "search".toList, text := "Search".toList, after := " dogs".toList }]
      (by decide) (by decide) rfl).2.2.2.1⟩

/-- The amended C3 at `search for cats` (dispatched as `cats`), at `Search`
(nothing dispatched) and at ` hi ` (dispatched as it is). -/
theorem processCommand_dispatch_guard_witness :
    hasTrigger plainCaseTable "search for cats".toList = true ∧
    dispatchedQuery plainCaseTable "search for cats".toList = some "cats".toList ∧
    processCommand plainCaseTable initialState "search for cats".toList =
      performSearch plainCaseTable initialState "cats".toList ∧
    hasTrigger plainCaseTable "Search".toList = true ∧
    trim (stripPhrases "Search".toList) = [] ∧
    processCommand plainCaseTable initialState "Search".toList = initialState ∧
    hasTrigger plainCaseTable " hi ".toList = false ∧
    dispatchedQuery plainCaseTable " hi ".toList = some " hi ".toList :=
  ⟨rfl, by decide,
    ((processCommand_dispatch_guard plainCaseTable initialState "search for cats".toList).1 rfl
      "cats".toList (by decide)).2.2.2.2,
    rfl, by decide,
    ((processCommand_dispatch_guard plainCaseTable initialState "Search".toList).2.1 rfl
      (by decide)).2,
    rfl,
    ((processCommand_dispatch_guard plainCaseTable initialState " hi ".toList).2.2 rfl
      (by decide)).1⟩

end VoiceAgent
